import Mathlib

/-!
Verification development for the observer-mailbox repository.

The TypeScript sources are shallowly embedded: classes become explicit
state records, methods become functions threading that state, JS numbers
used as step counters become `Int`, confidences become `ℚ`, and nullable
fields become `Option`.  `Map` objects become association lists with
first-match lookup.  The sha256-based 16-hex content fingerprint is
modelled abstractly by an injective function (the identity on strings):
no claim depends on hash collisions.  `crypto.randomUUID` is modelled by
a deterministic fresh-id counter carried in the store state.
-/

namespace Mailbox

/-- Message categories, from `types.ts` (`MessageType`). -/
inductive MessageType
  | insight
  | correction
  | warning
  | context
deriving DecidableEq, Repr

/-- Status filter values, from `types.ts` (`MessageStatus`). -/
inductive MessageStatus
  | pending
  | incorporated
  | all
deriving DecidableEq, Repr

deriving instance Inhabited for MessageType

/-- A message in the mailbox, from `types.ts` (`MailboxMessage`).
`from` is a Lean keyword, so that field is called `fromAgent` here. -/
structure MailboxMessage where
  id : String
  threadId : String
  fromAgent : String
  sentAtStep : Int
  sentAtTime : Int
  type : MessageType
  content : String
  confidence : ℚ
  incorporatedAtStep : Option Int
  expiresAtStep : Option Int
  contentHash : String
deriving DecidableEq, Repr, Inhabited

/-- Input for sending a message, from `types.ts` (`SendMessageInput`):
a `MailboxMessage` without `id`, `incorporatedAtStep` and `contentHash`. -/
structure SendMessageInput where
  threadId : String
  fromAgent : String
  sentAtStep : Int
  sentAtTime : Int
  type : MessageType
  content : String
  confidence : ℚ
  expiresAtStep : Option Int
deriving DecidableEq, Repr

/-- Store configuration, from `types.ts` (`MailboxStoreConfig`). -/
structure MailboxStoreConfig where
  dedupeWindowSteps : Int
  maxMessagesPerThread : Nat
  snapshotRetentionSteps : Int
  defaultTtlSteps : Int
deriving DecidableEq, Repr

/-- `DEFAULT_MAILBOX_CONFIG` from `types.ts`. -/
def DEFAULT_MAILBOX_CONFIG : MailboxStoreConfig :=
  { dedupeWindowSteps := 5
    maxMessagesPerThread := 50
    snapshotRetentionSteps := 10
    defaultTtlSteps := 10 }

/-- `computeContentHash` from `store.ts`.  The real function is the first
16 hex digits of sha256; it is modelled abstractly by an injective
function on contents (the identity), which is what every claim about
"content fingerprints" uses. -/
def computeContentHash (content : String) : String := content

/-- `generateMessageId` from `store.ts` (`crypto.randomUUID`), modelled by
a deterministic fresh counter. -/
def generateMessageId (n : Nat) : String := "msg-" ++ toString n

/-- First-match lookup on an association list, modelling `Map.get`. -/
def mapGet {α : Type} (m : List (String × α)) (k : String) : Option α :=
  (m.find? (fun p => p.1 == k)).map (fun p => p.2)

/-- Update-or-append on an association list, modelling `Map.set`. -/
def mapSet {α : Type} (m : List (String × α)) (k : String) (v : α) :
    List (String × α) :=
  match m with
  | [] => [(k, v)]
  | p :: rest =>
      if p.1 == k then (k, v) :: rest else p :: mapSet rest k v

/-- The `InMemoryMailboxStore` state: the `messages` map, the merged
config, and the fresh-id counter modelling `crypto.randomUUID`.  The
`snapshots` map is omitted: no operation verified here reads or writes
it (`gc` in `store.ts` only filters messages). -/
structure StoreState where
  messages : List (String × List MailboxMessage)
  config : MailboxStoreConfig
  nextId : Nat
deriving DecidableEq, Repr

/-- Messages of one thread (`this.messages.get(threadId) ?? []`). -/
def threadMessages (s : StoreState) (threadId : String) : List MailboxMessage :=
  (mapGet s.messages threadId).getD []

/-- Ascending sent-at-step order used by the in-place
`messages.sort((a, b) => a.sentAtStep - b.sentAtStep)` in
`enforceMaxMessages`.  JS array sort is stable, so it agrees with
stable insertion sort under this total preorder. -/
def StepOrder (a b : MailboxMessage) : Prop :=
  a.sentAtStep ≤ b.sentAtStep

instance : DecidableRel StepOrder := fun a b => by
  unfold StepOrder
  infer_instance

instance : IsTotal MailboxMessage StepOrder :=
  ⟨fun a b => Int.le_total a.sentAtStep b.sentAtStep⟩

instance : IsTrans MailboxMessage StepOrder :=
  ⟨fun _ _ _ hab hbc => le_trans hab hbc⟩

/-- One round of the `enforceMaxMessages` loop body in `store.ts`:
if any incorporated message exists, remove the first-in-array one with
minimal `sentAtStep` (what the stable `incorporated.sort(...)[0]` plus
`indexOf`/`splice` does); otherwise stably sort by `sentAtStep` ascending
in place and remove the head (`messages.sort(...)` then splicing out
`messages[0]`).  The `indexOf === -1` defensive break in the source is
unreachable because the element searched for is always in the array. -/
def evictRound (l : List MailboxMessage) : List MailboxMessage :=
  let incorporated := l.filter (fun m => m.incorporatedAtStep.isSome)
  match (incorporated.map (fun m => m.sentAtStep)).min? with
  | none => (l.insertionSort StepOrder).tail
  | some k =>
      l.eraseIdx
        (l.findIdx (fun m => m.incorporatedAtStep.isSome && decide (m.sentAtStep = k)))

/-- The `while` loop of `enforceMaxMessages`, with an explicit fuel
argument; since every round shrinks the list by one, `l.length` rounds
always suffice, which is how `enforceMaxMessages` instantiates it. -/
def enforceGo (maxPerThread : Nat) : Nat → List MailboxMessage → List MailboxMessage
  | 0, l => l
  | fuel + 1, l =>
      if maxPerThread < l.length then
        enforceGo maxPerThread fuel (evictRound l)
      else
        l

/-- `enforceMaxMessages` from `store.ts`: evict one message per round
while the thread exceeds `maxMessagesPerThread`. -/
def enforceMaxMessages (maxPerThread : Nat) (l : List MailboxMessage) :
    List MailboxMessage :=
  enforceGo maxPerThread l.length l

/-- The `isDuplicate` check inside `send` in `store.ts`: some message of
the thread has the candidate's content hash and
`m.sentAtStep >= message.sentAtStep - dedupeWindowSteps` (note that the
source has no upper bound on `m.sentAtStep`). -/
def isDuplicate (s : StoreState) (message : SendMessageInput) : Bool :=
  (threadMessages s message.threadId).any (fun m =>
    m.contentHash == computeContentHash message.content &&
      decide (m.sentAtStep ≥ message.sentAtStep - s.config.dedupeWindowSteps))

/-- The `fullMessage` built inside `send` in `store.ts`, with the
auto-generated fields filled in
(`expiresAtStep ?? sentAtStep + defaultTtlSteps`). -/
def fullMessage (s : StoreState) (message : SendMessageInput) :
    MailboxMessage :=
  { id := generateMessageId s.nextId
    threadId := message.threadId
    fromAgent := message.fromAgent
    sentAtStep := message.sentAtStep
    sentAtTime := message.sentAtTime
    type := message.type
    content := message.content
    confidence := message.confidence
    incorporatedAtStep := none
    expiresAtStep :=
      some (message.expiresAtStep.getD
        (message.sentAtStep + s.config.defaultTtlSteps))
    contentHash := computeContentHash message.content }

/-- `send` from `store.ts`.  Returns the boolean result and the new
store state. -/
def send (s : StoreState) (message : SendMessageInput) :
    Bool × StoreState :=
  if isDuplicate s message then
    (false, s)
  else
    let newThread :=
      enforceMaxMessages s.config.maxMessagesPerThread
        (threadMessages s message.threadId ++ [fullMessage s message])
    (true,
      { s with
          messages := mapSet s.messages message.threadId newThread
          nextId := s.nextId + 1 })

/-- Query options, from `types.ts` (`QueryOptions`). -/
structure QueryOptions where
  status : Option MessageStatus := none
  minConfidence : Option ℚ := none
  types : Option (List MessageType) := none
  limit : Option Nat := none
  newerThanStep : Option Int := none
deriving DecidableEq, Repr

/-- The filter predicate inside `query` in `store.ts`, with
`currentStep = opts.newerThanStep ?? 0`. -/
def queryKeep (opts : QueryOptions) (currentStep : Int)
    (m : MailboxMessage) : Bool :=
  if opts.status == some MessageStatus.pending && m.incorporatedAtStep.isSome then
    false
  else if opts.status == some MessageStatus.incorporated &&
      m.incorporatedAtStep.isNone then
    false
  else if (match opts.minConfidence with
      | some c => decide (m.confidence < c)
      | none => false) then
    false
  else if (match opts.types with
      | some ts => !(ts.contains m.type)
      | none => false) then
    false
  else if (match opts.newerThanStep with
      | some n => decide (m.sentAtStep ≤ n)
      | none => false) then
    false
  else if (match m.expiresAtStep with
      | some e => decide (e ≤ currentStep)
      | none => false) then
    false
  else
    true

/-- The sort comparator of `query` in `store.ts` as a total preorder:
confidence descending, ties by sent-at-step descending.  JS array sort
is stable, so it agrees with stable insertion sort under this order. -/
def QueryOrder (a b : MailboxMessage) : Prop :=
  b.confidence < a.confidence ∨
    (b.confidence = a.confidence ∧ b.sentAtStep ≤ a.sentAtStep)

instance : DecidableRel QueryOrder := fun a b => by
  unfold QueryOrder
  infer_instance

instance : IsTotal MailboxMessage QueryOrder := by
  constructor
  intro a b
  unfold QueryOrder
  rcases lt_trichotomy a.confidence b.confidence with h | h | h
  · exact Or.inr (Or.inl h)
  · rcases Int.le_total a.sentAtStep b.sentAtStep with hs | hs
    · exact Or.inr (Or.inr ⟨h, hs⟩)
    · exact Or.inl (Or.inr ⟨h.symm, hs⟩)
  · exact Or.inl (Or.inl h)

instance : IsTrans MailboxMessage QueryOrder := by
  constructor
  intro a b c hab hbc
  unfold QueryOrder at *
  rcases hab with h₁ | ⟨h₁, h₁s⟩ <;> rcases hbc with h₂ | ⟨h₂, h₂s⟩
  · exact Or.inl (h₂.trans h₁)
  · exact Or.inl (h₂ ▸ h₁)
  · exact Or.inl (h₁ ▸ h₂)
  · exact Or.inr ⟨h₂.trans h₁, h₂s.trans h₁s⟩

/-- `query` from `store.ts`: filter, stable-sort, then `slice(0, limit)`. -/
def query (s : StoreState) (threadId : String) (opts : QueryOptions) :
    List MailboxMessage :=
  let messages := threadMessages s threadId
  let currentStep := opts.newerThanStep.getD 0
  let filtered := messages.filter (queryKeep opts currentStep)
  let sorted := filtered.insertionSort QueryOrder
  match opts.limit with
  | none => sorted
  | some n => sorted.take n

/-- `markIncorporated` from `store.ts`: for every message in every
thread whose id is in the list, set `incorporatedAtStep := atStep`
(the code has no pending-only guard). -/
def markIncorporated (s : StoreState) (messageIds : List String)
    (atStep : Int) : StoreState :=
  { s with
      messages := s.messages.map (fun p =>
        (p.1, p.2.map (fun m =>
          if messageIds.contains m.id then
            { m with incorporatedAtStep := some atStep }
          else
            m))) }

/-- The keep-predicate of `gc` in `store.ts`. -/
def gcKeep (cfg : MailboxStoreConfig) (currentStep : Int)
    (m : MailboxMessage) : Bool :=
  if (match m.expiresAtStep with
      | some e => decide (e ≤ currentStep)
      | none => false) then
    false
  else if (match m.incorporatedAtStep with
      | some i => decide (i < currentStep - cfg.snapshotRetentionSteps)
      | none => false) then
    false
  else
    true

/-- `gc` from `store.ts`: filter one thread by `gcKeep`; no-op when the
thread has no entry in the map. -/
def gc (s : StoreState) (threadId : String) (currentStep : Int) :
    StoreState :=
  match mapGet s.messages threadId with
  | none => s
  | some messages =>
      { s with
          messages :=
            mapSet s.messages threadId
              (messages.filter (gcKeep s.config currentStep)) }

/-- `getMessageCount` from `store.ts`. -/
def getMessageCount (s : StoreState) (threadId : String) : Nat :=
  (threadMessages s threadId).length

/-! ### Retention manager (`retention.ts`) -/

/-- Keep-priority values of a retention policy. -/
inductive RetentionPriority
  | newest
  | highestConfidence
  | oldest
deriving DecidableEq, Repr

/-- `RetentionPolicy` from `retention.ts`; optional fields are `Option`s. -/
structure RetentionPolicy where
  type : MessageType
  maxCount : Option Nat := none
  dedupe : Option Bool := none
  priority : Option RetentionPriority := none
  minConfidence : Option ℚ := none
deriving DecidableEq, Repr

/-- `Omit<RetentionPolicy, "type">`: the shape of `defaultPolicy`. -/
structure DefaultRetentionPolicy where
  maxCount : Option Nat := none
  dedupe : Option Bool := none
  priority : Option RetentionPriority := none
  minConfidence : Option ℚ := none
deriving DecidableEq, Repr

/-- `RetentionManagerConfig` from `retention.ts` (after the constructor
merge with `DEFAULT_RETENTION_CONFIG`). -/
structure RetentionManagerConfig where
  policies : List RetentionPolicy
  defaultPolicy : Option DefaultRetentionPolicy := none
  globalMaxMessages : Option Nat := none
deriving DecidableEq, Repr

/-- The `policyMap` lookup: the constructor `Map.set`s each policy under
its type, so the last policy listed for a type wins. -/
def policyMapGet (policies : List RetentionPolicy) (t : MessageType) :
    Option RetentionPolicy :=
  policies.reverse.find? (fun p => p.type == t)

/-- `getPolicy` from `retention.ts`: explicit policy, else the default
policy with the type filled in, else the hard-coded fallback. -/
def getPolicy (cfg : RetentionManagerConfig) (t : MessageType) :
    RetentionPolicy :=
  match policyMapGet cfg.policies t with
  | some p => p
  | none =>
      match cfg.defaultPolicy with
      | some d =>
          { type := t, maxCount := d.maxCount, dedupe := d.dedupe
            priority := d.priority, minConfidence := d.minConfidence }
      | none =>
          { type := t, maxCount := some 5, dedupe := some false
            priority := some RetentionPriority.newest, minConfidence := none }

/-- `filterByConfidence` from `retention.ts`: the one-pass partition into
`passing` (confidence ≥ floor) and `failing`, both in input order. -/
def filterByConfidence (messages : List MailboxMessage) (minConfidence : ℚ) :
    List MailboxMessage × List MailboxMessage :=
  (messages.filter (fun m => decide (minConfidence ≤ m.confidence)),
    messages.filter (fun m => !decide (minConfidence ≤ m.confidence)))

/-- Descending sent-at-step order used by the stable
`sort((a, b) => b.sentAtStep - a.sentAtStep)` in `deduplicate`. -/
def NewestOrder (a b : MailboxMessage) : Prop :=
  b.sentAtStep ≤ a.sentAtStep

instance : DecidableRel NewestOrder := fun a b => by
  unfold NewestOrder
  infer_instance

/-- The `seen`-set loop of `deduplicate` in `retention.ts`, over the
already-sorted list: first occurrence of a content hash is unique, later
ones are duplicates; both outputs keep iteration order. -/
def dedupGo : List MailboxMessage → List String →
    List MailboxMessage × List MailboxMessage
  | [], _ => ([], [])
  | m :: rest, seen =>
      if seen.contains m.contentHash then
        let r := dedupGo rest seen
        (r.1, m :: r.2)
      else
        let r := dedupGo rest (m.contentHash :: seen)
        (m :: r.1, r.2)

/-- `deduplicate` from `retention.ts`: stable-sort newest-first, then
keep the first (newest) message of each content hash. -/
def deduplicate (messages : List MailboxMessage) :
    List MailboxMessage × List MailboxMessage :=
  dedupGo (messages.insertionSort NewestOrder) []

/-- Descending confidence order with ties by sent-at-step descending,
used by `sortByPriority` for `highest-confidence`. -/
def HighConfOrder (a b : MailboxMessage) : Prop :=
  b.confidence < a.confidence ∨
    (b.confidence = a.confidence ∧ b.sentAtStep ≤ a.sentAtStep)

instance : DecidableRel HighConfOrder := fun a b => by
  unfold HighConfOrder
  infer_instance

/-- Descending confidence order used by the global-limit
`keep.sort((a, b) => b.confidence - a.confidence)` in `apply`. -/
def ConfOrder (a b : MailboxMessage) : Prop :=
  b.confidence ≤ a.confidence

instance : DecidableRel ConfOrder := fun a b => by
  unfold ConfOrder
  infer_instance

/-- `sortByPriority` from `retention.ts` (stable, like JS sort). -/
def sortByPriority (messages : List MailboxMessage)
    (priority : RetentionPriority) : List MailboxMessage :=
  match priority with
  | RetentionPriority.newest => messages.insertionSort NewestOrder
  | RetentionPriority.oldest => messages.insertionSort StepOrder
  | RetentionPriority.highestConfidence => messages.insertionSort HighConfOrder

/-- Result of `applyPolicy` in `retention.ts`. -/
structure ApplyPolicyResult where
  keep : List MailboxMessage
  cull : List MailboxMessage
  dedupCulled : Nat
  confidenceCulled : Nat
deriving DecidableEq, Repr

/-- `applyPolicy` from `retention.ts`: confidence floor, then dedup, then
priority sort, then max-count truncation; culled messages accumulate in
that order. -/
def applyPolicy (messages : List MailboxMessage) (policy : RetentionPolicy) :
    ApplyPolicyResult :=
  let step1 :=
    match policy.minConfidence with
    | some c =>
        let p := filterByConfidence messages c
        (p.1, p.2, p.2.length)
    | none => (messages, ([] : List MailboxMessage), 0)
  let step2 :=
    if policy.dedupe.getD false then
      let d := deduplicate step1.1
      (d.1, step1.2.1 ++ d.2, d.2.length)
    else
      (step1.1, step1.2.1, 0)
  let sorted := sortByPriority step2.1 (policy.priority.getD RetentionPriority.newest)
  match policy.maxCount with
  | some mc =>
      if mc < sorted.length then
        { keep := sorted.take mc, cull := step2.2.1 ++ sorted.drop mc
          dedupCulled := step2.2.2, confidenceCulled := step1.2.2 }
      else
        { keep := sorted, cull := step2.2.1
          dedupCulled := step2.2.2, confidenceCulled := step1.2.2 }
  | none =>
      { keep := sorted, cull := step2.2.1
        dedupCulled := step2.2.2, confidenceCulled := step1.2.2 }

/-- One step of `groupByType` in `retention.ts`: append the message to
its type's group, keeping first-appearance group order. -/
def addToGroup (groups : List (MessageType × List MailboxMessage))
    (m : MailboxMessage) : List (MessageType × List MailboxMessage) :=
  match groups with
  | [] => [(m.type, [m])]
  | (t, ms) :: rest =>
      if t == m.type then (t, ms ++ [m]) :: rest
      else (t, ms) :: addToGroup rest m

/-- `groupByType` from `retention.ts`. -/
def groupByType (messages : List MailboxMessage) :
    List (MessageType × List MailboxMessage) :=
  messages.foldl addToGroup []

/-- Accumulator of the per-type loop in `apply`. -/
structure GroupsAcc where
  keeps : List (List MailboxMessage)
  culls : List (List MailboxMessage)
  typeCounts : List (MessageType × Nat)
  dedupCulled : Nat
  confidenceCulled : Nat

/-- The per-type loop of `apply` in `retention.ts`: apply each group's
policy, recording kept and culled lists in group order together with the
per-type cull count and the dedup/confidence tallies. -/
def applyGroups (cfg : RetentionManagerConfig) :
    List (MessageType × List MailboxMessage) → GroupsAcc
  | [] =>
      { keeps := [], culls := [], typeCounts := []
        dedupCulled := 0, confidenceCulled := 0 }
  | (t, typeMessages) :: rest =>
      let r := applyPolicy typeMessages (getPolicy cfg t)
      let acc := applyGroups cfg rest
      { keeps := r.keep :: acc.keeps
        culls := r.cull :: acc.culls
        typeCounts := (t, r.cull.length) :: acc.typeCounts
        dedupCulled := r.dedupCulled + acc.dedupCulled
        confidenceCulled := r.confidenceCulled + acc.confidenceCulled }

/-- The stats record of `RetentionResult` in `retention.ts`.
`culledByType` models the `Record<MessageType, number>` that `apply`
zero-initialises and then assigns once per present type. -/
structure RetentionStats where
  totalInput : Nat
  totalKept : Nat
  culledByType : MessageType → Nat
  culledByDedup : Nat
  culledByConfidence : Nat

/-- `RetentionResult` from `retention.ts`. -/
structure RetentionResult where
  keep : List MailboxMessage
  cull : List MailboxMessage
  stats : RetentionStats

/-- `RetentionManager.apply` from `retention.ts`: group by type, apply
each type's policy, flatten, then apply the global maximum (a falsy —
absent or zero — `globalMaxMessages` disables it), and report stats. -/
def retentionApply (cfg : RetentionManagerConfig)
    (messages : List MailboxMessage) : RetentionResult :=
  let acc := applyGroups cfg (groupByType messages)
  let keep0 := acc.keeps.flatten
  let cull0 := acc.culls.flatten
  let trimmed :=
    match cfg.globalMaxMessages with
    | some g =>
        if g ≠ 0 ∧ g < keep0.length then
          let sorted := keep0.insertionSort ConfOrder
          (sorted.take g, cull0 ++ sorted.drop g)
        else
          (keep0, cull0)
    | none => (keep0, cull0)
  { keep := trimmed.1
    cull := trimmed.2
    stats :=
      { totalInput := messages.length
        totalKept := trimmed.1.length
        culledByType := fun t =>
          ((acc.typeCounts.find? (fun p => p.1 == t)).map (fun p => p.2)).getD 0
        culledByDedup := acc.dedupCulled
        culledByConfidence := acc.confidenceCulled } }

/-- The sum of the four per-type counters of a `culledByType` record. -/
def sumByType (f : MessageType → Nat) : Nat :=
  f MessageType.insight + f MessageType.correction +
    f MessageType.warning + f MessageType.context

/-! ### Retry loop (`middleware.ts` `executeObservers`,
`primitives/context.ts` `dispatchToObservers`) -/

/-- Trace of one run of the retry loop: how many attempts were made, the
backoff delays passed to `sleep` between consecutive attempts (in order),
and the error handed to the error callback, with the attempt count,
after exhaustion (`none` when no error was reported). -/
structure RetryTrace where
  attempts : Nat
  delays : List ℚ
  reported : Option (String × Nat)
deriving DecidableEq, Repr

/-- The `for (attempt = 0; attempt <= maxRetries; attempt++)` loop shared
by `executeObservers` in `middleware.ts` and `dispatchToObservers` in
`primitives/context.ts`.  The invoked handler is abstracted by `outcome`:
`outcome i = none` means attempt `i` succeeds, `outcome i = some e` means
it throws `e`.  `remaining` counts the attempts still allowed after the
current one (`maxRetries - attempt`). -/
def retryGo (baseDelayMs : ℚ) (outcome : Nat → Option String)
    (attempt : Nat) : Nat → RetryTrace
  | 0 =>
      match outcome attempt with
      | none => { attempts := attempt + 1, delays := [], reported := none }
      | some e =>
          { attempts := attempt + 1, delays := []
            reported := some (e, attempt + 1) }
  | remaining + 1 =>
      match outcome attempt with
      | none => { attempts := attempt + 1, delays := [], reported := none }
      | some _ =>
          let rest := retryGo baseDelayMs outcome (attempt + 1) remaining
          { rest with delays := baseDelayMs * 2 ^ attempt :: rest.delays }

/-- `executeObservers`' retry behaviour (identically,
`dispatchToObservers`' inner `execute`): run the loop from attempt 0 with
`maxRetries` retries allowed. -/
def executeObservers (maxRetries : Nat) (baseDelayMs : ℚ)
    (outcome : Nat → Option String) : RetryTrace :=
  retryGo baseDelayMs outcome 0 maxRetries

/-! ### Observer registry (`observer-registry.ts`) -/

/-- The slice of `StepSnapshot` that `dispatch` reads; the analysis
payload fields (`promptMessages`, `workingMemory`, `response`,
`incorporatedMessageIds`) are opaque to everything verified here. -/
structure StepSnapshot where
  threadId : String
  stepNumber : Int

/-- `ObserverResult` from `observer-registry.ts`; absent `messages` is
the empty list and absent `skipRemainingObservers` is `false` (both are
only ever used in falsy-tolerant positions). -/
structure ObserverResultM where
  messages : List SendMessageInput := []
  skipRemainingObservers : Bool := false

/-- `ObserverHandler` from `observer-registry.ts`; a throwing or
rejecting `handle` is an `Except.error`. -/
structure ObserverHandler where
  id : String
  name : String
  priority : Int
  filter : Option (StepSnapshot → Bool) := none
  handle : StepSnapshot → Except String ObserverResultM

/-- The registry state: handlers in registration order (a JS `Map`
preserves insertion order; `register` throws on duplicate ids, so the
ids of a reachable registry are distinct) plus `continueOnError`. -/
structure ObserverRegistry where
  handlers : List ObserverHandler
  continueOnError : Bool := true

/-- Descending priority order used by `getHandlers`
(`sort((a, b) => b.priority - a.priority)`, stable, so registration
order breaks ties). -/
def PriorityOrder (a b : ObserverHandler) : Prop :=
  b.priority ≤ a.priority

instance : DecidableRel PriorityOrder := fun a b => by
  unfold PriorityOrder
  infer_instance

instance : IsTotal ObserverHandler PriorityOrder :=
  ⟨fun a b => Int.le_total b.priority a.priority⟩

instance : IsTrans ObserverHandler PriorityOrder :=
  ⟨fun _ _ _ hab hbc => le_trans hbc hab⟩

/-- `getHandlers` from `observer-registry.ts`. -/
def getHandlers (reg : ObserverRegistry) : List ObserverHandler :=
  reg.handlers.insertionSort PriorityOrder

/-- What happened to one handler during a dispatch (ghost trace entry):
its filter rejected the snapshot, its `handle` returned a result, or its
`handle` threw. -/
inductive HandlerStep
  | skipped : HandlerStep
  | ranOk : ObserverResultM → HandlerStep
  | ranErr : String → HandlerStep

/-- Whether a trace entry records a filter skip. -/
def isSkippedStep : HandlerStep → Bool
  | HandlerStep.skipped => true
  | _ => false

/-- Whether a trace entry records a successful handler run. -/
def isOkStep : HandlerStep → Bool
  | HandlerStep.ranOk _ => true
  | _ => false

/-- The error entry (if any) a trace entry contributes. -/
def errOfStep (p : ObserverHandler × HandlerStep) : Option (String × String) :=
  match p.2 with
  | HandlerStep.ranErr e => some (p.1.id, e)
  | _ => none

/-- `DispatchResult` from `observer-registry.ts`, extended with a ghost
`log` recording, in processing order, each handler reached by the loop
and what happened to it (the source result is the other five fields). -/
structure DispatchResult where
  observersRun : Nat
  messagesSent : Nat
  observersSkipped : List String
  errors : List (String × String)
  shortCircuited : Bool
  log : List (ObserverHandler × HandlerStep)

/-- The message-forwarding loop inside `dispatch`: each observer message
is completed with the snapshot's `threadId` and, when its `from` is
falsy (empty), the handler id, then `store.send` is called and
`messagesSent` counts the sends that returned `true`. -/
def sendObserverMessages (snap : StepSnapshot) (handlerId : String) :
    List SendMessageInput → StoreState → Nat → StoreState × Nat
  | [], st, n => (st, n)
  | m :: rest, st, n =>
      let fm : SendMessageInput :=
        { m with
            threadId := snap.threadId
            fromAgent := if m.fromAgent == "" then handlerId else m.fromAgent }
      let r := send st fm
      sendObserverMessages snap handlerId rest r.2 (if r.1 then n + 1 else n)

/-- The handler loop of `dispatch` in `observer-registry.ts`.  Returns
`Except.error e` when a handler throws and `continueOnError` is false
(the `onObserverError` notification callback is an external side effect
and is not modelled).  Store changes made before a stop persist. -/
def dispatchGo (cont : Bool) (snap : StepSnapshot) :
    List ObserverHandler → StoreState → DispatchResult →
      Except String DispatchResult × StoreState
  | [], st, acc => (Except.ok acc, st)
  | h :: rest, st, acc =>
      if (match h.filter with
          | some f => !f snap
          | none => false) then
        dispatchGo cont snap rest st
          { acc with
              observersSkipped := acc.observersSkipped ++ [h.id]
              log := acc.log ++ [(h, HandlerStep.skipped)] }
      else
        match h.handle snap with
        | Except.ok r =>
            let sent := sendObserverMessages snap h.id r.messages st acc.messagesSent
            let acc2 :=
              { acc with
                  observersRun := acc.observersRun + 1
                  messagesSent := sent.2
                  log := acc.log ++ [(h, HandlerStep.ranOk r)] }
            if r.skipRemainingObservers then
              (Except.ok { acc2 with shortCircuited := true }, sent.1)
            else
              dispatchGo cont snap rest sent.1 acc2
        | Except.error e =>
            let acc2 :=
              { acc with
                  errors := acc.errors ++ [(h.id, e)]
                  log := acc.log ++ [(h, HandlerStep.ranErr e)] }
            if cont then
              dispatchGo cont snap rest st acc2
            else
              (Except.error e, st)

/-- The all-zero `DispatchResult` that `dispatch` starts from. -/
def emptyDispatchResult : DispatchResult :=
  { observersRun := 0, messagesSent := 0, observersSkipped := []
    errors := [], shortCircuited := false, log := [] }

/-- `dispatch` from `observer-registry.ts`. -/
def dispatch (reg : ObserverRegistry) (snap : StepSnapshot)
    (st : StoreState) : Except String DispatchResult × StoreState :=
  dispatchGo reg.continueOnError snap (getHandlers reg) st emptyDispatchResult

/-! ### Spec-side definitions for refinement comparisons -/

/-- The dedup condition as the spec states it (closed interval): some
existing message of the thread shares the candidate's content
fingerprint and was sent within `[sentAtStep - dedupeWindowSteps,
sentAtStep]`.  To be compared against `isDuplicate`, which has no upper
bound. -/
def dupWithinClosedWindow (s : StoreState) (c : SendMessageInput) : Prop :=
  ∃ m ∈ threadMessages s c.threadId,
    m.contentHash = computeContentHash c.content ∧
      c.sentAtStep - s.config.dedupeWindowSteps ≤ m.sentAtStep ∧
        m.sentAtStep ≤ c.sentAtStep

instance (s : StoreState) (c : SendMessageInput) :
    Decidable (dupWithinClosedWindow s c) := by
  unfold dupWithinClosedWindow
  infer_instance

/-- `markIncorporated` as the spec states it: only messages whose
`incorporatedAtStep` is still null receive `atStep`.  To be compared
against `markIncorporated`, which has no null guard. -/
def markIncorporatedSpec (s : StoreState) (messageIds : List String)
    (atStep : Int) : StoreState :=
  { s with
      messages := s.messages.map (fun p =>
        (p.1, p.2.map (fun m =>
          if messageIds.contains m.id ∧ m.incorporatedAtStep = none then
            { m with incorporatedAtStep := some atStep }
          else
            m))) }

/-! ### Concrete stores and inputs used by scenarios and witnesses -/

/-- A fresh store with the default configuration. -/
def emptyStore : StoreState :=
  { messages := [], config := DEFAULT_MAILBOX_CONFIG, nextId := 0 }

/-- A message sent at step `k` with TTL 3 (`expiresAtStep = k + 3`). -/
def ttlInput (k : Int) : SendMessageInput :=
  { threadId := "t", fromAgent := "obs", sentAtStep := k, sentAtTime := 0
    type := MessageType.insight, content := "m" ++ toString k
    confidence := 1, expiresAtStep := some (k + 3) }

/-- Five sends at steps 1..5, each with TTL 3 (the spec's gc example). -/
def ttlStore : StoreState :=
  (send (send (send (send (send emptyStore
    (ttlInput 1)).2 (ttlInput 2)).2 (ttlInput 3)).2 (ttlInput 4)).2
      (ttlInput 5)).2

/-- A candidate with fixed content `"same"` sent at step `k`. -/
def dupInput (k : Int) : SendMessageInput :=
  { threadId := "t", fromAgent := "obs", sentAtStep := k, sentAtTime := 0
    type := MessageType.insight, content := "same", confidence := 1
    expiresAtStep := none }

/-- A store holding one `"same"`-content message sent at step 100. -/
def futureStore : StoreState := (send emptyStore (dupInput 100)).2

/-- Store after sending one message from the empty store (id `msg-0`). -/
def oneMsgStore : StoreState := (send emptyStore (dupInput 1)).2

/-- `oneMsgStore` after `markIncorporated(["msg-0"], 3)`. -/
def markedAt3 : StoreState := markIncorporated oneMsgStore ["msg-0"] 3

/-- An insight message with duplicate content hash, numbered id, and the
given sent-at-step, used for the retention counterexample. -/
def retMsg (i : Nat) (k : Int) : MailboxMessage :=
  { id := "m" ++ toString i, threadId := "t", fromAgent := "o"
    sentAtStep := k, sentAtTime := 0, type := MessageType.insight
    content := "dup", confidence := 1, incorporatedAtStep := none
    expiresAtStep := none, contentHash := "dup" }

/-- A retention config whose only policy dedups insights, with no
default policy and no global maximum. -/
def retCfg : RetentionManagerConfig :=
  { policies := [{ type := MessageType.insight, dedupe := some true }]
    defaultPolicy := none, globalMaxMessages := none }

/-- A pending message with the given confidence, sent-at-step and id
suffix, never expiring, for the ordering scenario. -/
def ordMsg (q : ℚ) (k : Int) (i : Nat) : MailboxMessage :=
  { id := "o" ++ toString i, threadId := "t", fromAgent := "o"
    sentAtStep := k, sentAtTime := 0, type := MessageType.insight
    content := "c" ++ toString i, confidence := q
    incorporatedAtStep := none, expiresAtStep := none
    contentHash := "c" ++ toString i }

/-- A thread holding confidences 0.5, 0.9, 0.7 (steps 3, 1, 2) in
shuffled insertion order. -/
def ordStore : StoreState :=
  { messages := [("t", [ordMsg (mkRat 1 2) 3 1, ordMsg (mkRat 9 10) 1 2,
      ordMsg (mkRat 7 10) 2 3])]
    config := DEFAULT_MAILBOX_CONFIG, nextId := 0 }

/-- Handler whose filter rejects every snapshot (priority 10). -/
def obsH1 : ObserverHandler :=
  { id := "h1", name := "one", priority := 10
    filter := some (fun _ => false)
    handle := fun _ => Except.ok {} }

/-- Handler requesting a short-circuit (priority 5). -/
def obsH2 : ObserverHandler :=
  { id := "h2", name := "two", priority := 5
    handle := fun _ => Except.ok { skipRemainingObservers := true } }

/-- Handler that would run normally (priority 1). -/
def obsH3 : ObserverHandler :=
  { id := "h3", name := "three", priority := 1
    handle := fun _ => Except.ok {} }

/-- Registry with the three handlers registered in mixed order. -/
def obsReg : ObserverRegistry := { handlers := [obsH3, obsH1, obsH2] }

/-- A snapshot for the dispatch witness. -/
def obsSnap : StepSnapshot := { threadId := "t", stepNumber := 1 }

/-- The `DispatchResult` of dispatching `obsSnap` over `obsReg` on the
empty store (extracted from the `Except`). -/
def obsRes : DispatchResult :=
  match (dispatch obsReg obsSnap emptyStore).1 with
  | Except.ok r => r
  | Except.error _ => emptyDispatchResult

/-- Deciding "the optional step is present and at most `c`". -/
instance decExLe (o : Option Int) (c : Int) :
    Decidable (∃ e, o = some e ∧ e ≤ c) :=
  match o with
  | none => isFalse (by simp)
  | some e =>
      if h : e ≤ c then isTrue ⟨e, rfl, h⟩ else isFalse (by simp [h])

/-- Deciding "the optional step is present and below `c`". -/
instance decExLt (o : Option Int) (c : Int) :
    Decidable (∃ i, o = some i ∧ i < c) :=
  match o with
  | none => isFalse (by simp)
  | some i =>
      if h : i < c then isTrue ⟨i, rfl, h⟩ else isFalse (by simp [h])

/-! ## Helper lemmas -/

/-- A boolean equals the decision of any proposition it is equivalent
to. -/
theorem bool_eq_decide {b : Bool} {p : Prop} [Decidable p]
    (h : b = true ↔ p) : b = decide p := by
  cases b <;> simp_all

/-- Looking up the key just set returns the new value. -/
theorem mapGet_mapSet_self {α : Type} (m : List (String × α)) (k : String)
    (v : α) : mapGet (mapSet m k v) k = some v := by
  induction m with
  | nil => simp [mapGet, mapSet]
  | cons p rest ih =>
      simp only [mapSet]
      by_cases h : p.1 == k
      · simp [mapGet, h]
      · rw [if_neg h]
        simpa [mapGet, List.find?, h] using ih

/-- Lookup commutes with mapping values of an association list. -/
theorem mapGet_map_values {α β : Type} (g : α → β)
    (m : List (String × α)) (k : String) :
    mapGet (m.map (fun p => (p.1, g p.2))) k = (mapGet m k).map g := by
  induction m with
  | nil => simp [mapGet]
  | cons p rest ih =>
      by_cases h : p.1 == k
      · simp [mapGet, List.find?, h]
      · simpa [mapGet, List.find?, h] using ih

/-- Each round removes exactly one message from a nonempty list. -/
theorem evictRound_length (l : List MailboxMessage) :
    (evictRound l).length = l.length - 1 := by
  unfold evictRound
  cases hmin : ((l.filter (fun m => m.incorporatedAtStep.isSome)).map
      (fun m => m.sentAtStep)).min? with
  | none =>
      simp only [hmin]
      rw [List.length_tail, List.length_insertionSort]
  | some k =>
      simp only [hmin]
      have hmem := List.min?_mem (fun a b => min_choice a b) hmin
      rw [List.mem_map] at hmem
      obtain ⟨m, hm, hk⟩ := hmem
      rw [List.mem_filter] at hm
      have hex : ∃ x ∈ l, (fun m => m.incorporatedAtStep.isSome &&
          decide (m.sentAtStep = k)) x = true := by
        refine ⟨m, hm.1, ?_⟩
        simp [hm.2, hk]
      have hidx := List.findIdx_lt_length_of_exists hex
      rw [List.length_eraseIdx_of_lt hidx]

/-- Everything kept by a round was already present. -/
theorem evictRound_subset (l : List MailboxMessage) :
    ∀ x ∈ evictRound l, x ∈ l := by
  intro x
  unfold evictRound
  cases hmin : ((l.filter (fun m => m.incorporatedAtStep.isSome)).map
      (fun m => m.sentAtStep)).min? with
  | none =>
      simp only [hmin]
      intro hx
      have hx2 : x ∈ l.insertionSort StepOrder := (List.tail_sublist _).mem hx
      exact (List.mem_insertionSort StepOrder).mp hx2
  | some k =>
      simp only [hmin]
      intro hx
      exact (List.eraseIdx_sublist _ _).mem hx

/-- With enough fuel, the eviction loop ends at or below the limit. -/
theorem enforceGo_length_le (maxP : Nat) :
    ∀ fuel l, l.length ≤ maxP + fuel →
      (enforceGo maxP fuel l).length ≤ maxP := by
  intro fuel
  induction fuel with
  | zero =>
      intro l h
      simp only [enforceGo]
      omega
  | succ n ih =>
      intro l h
      simp only [enforceGo]
      split
      · next hlt =>
          apply ih
          rw [evictRound_length]
          omega
      · next hge => omega

/-- After `enforceMaxMessages`, a thread never exceeds the limit. -/
theorem enforceMaxMessages_length (maxP : Nat) (l : List MailboxMessage) :
    (enforceMaxMessages maxP l).length ≤ maxP :=
  enforceGo_length_le maxP l.length l (by omega)

/-- The eviction loop only removes messages. -/
theorem enforceGo_subset (maxP : Nat) :
    ∀ fuel l x, x ∈ enforceGo maxP fuel l → x ∈ l := by
  intro fuel
  induction fuel with
  | zero =>
      intro l x hx
      simpa [enforceGo] using hx
  | succ n ih =>
      intro l x hx
      simp only [enforceGo] at hx
      by_cases hlt : maxP < l.length
      · rw [if_pos hlt] at hx
        exact evictRound_subset l x (ih (evictRound l) x hx)
      · rwa [if_neg hlt] at hx

/-- `enforceMaxMessages` only removes messages. -/
theorem enforceMaxMessages_subset (maxP : Nat) (l : List MailboxMessage) :
    ∀ x ∈ enforceMaxMessages maxP l, x ∈ l :=
  fun x hx => enforceGo_subset maxP l.length l x hx

/-- Below or at the limit, eviction does nothing. -/
theorem enforceMaxMessages_of_le (maxP : Nat) (l : List MailboxMessage)
    (h : ¬ maxP < l.length) : enforceMaxMessages maxP l = l := by
  unfold enforceMaxMessages
  cases l with
  | nil => rfl
  | cons a t =>
      simp only [enforceGo, List.length_cons]
      rw [if_neg (by simpa using h)]

/-- Above the limit, the loop takes one eviction round and continues:
the fuel instantiation is irrelevant because every round shrinks the
list by exactly one. -/
theorem enforceMaxMessages_step (maxP : Nat) (l : List MailboxMessage)
    (h : maxP < l.length) :
    enforceMaxMessages maxP l = enforceMaxMessages maxP (evictRound l) := by
  unfold enforceMaxMessages
  have hlen : (evictRound l).length = l.length - 1 := evictRound_length l
  obtain ⟨n, hn⟩ : ∃ n, l.length = n + 1 := ⟨l.length - 1, by omega⟩
  rw [hn]
  simp only [enforceGo]
  rw [if_pos (by omega : maxP < l.length)]
  have : (evictRound l).length = n := by omega
  rw [this]

/-- `isDuplicate` unfolded to its defining existential. -/
theorem isDuplicate_iff (s : StoreState) (c : SendMessageInput) :
    isDuplicate s c = true ↔
      ∃ m ∈ threadMessages s c.threadId,
        m.contentHash = computeContentHash c.content ∧
          c.sentAtStep - s.config.dedupeWindowSteps ≤ m.sentAtStep := by
  unfold isDuplicate
  rw [List.any_eq_true]
  constructor
  · rintro ⟨m, hm, hcond⟩
    rw [Bool.and_eq_true, beq_iff_eq, decide_eq_true_eq] at hcond
    exact ⟨m, hm, hcond.1, by omega⟩
  · rintro ⟨m, hm, hhash, hle⟩
    refine ⟨m, hm, ?_⟩
    rw [Bool.and_eq_true, beq_iff_eq, decide_eq_true_eq]
    exact ⟨hhash, by omega⟩

/-- A duplicate send rejects and returns the store untouched. -/
theorem send_of_dup {s : StoreState} {c : SendMessageInput}
    (h : isDuplicate s c = true) : send s c = (false, s) := by
  simp [send, h]

/-- An accepted send returns `true`. -/
theorem send_fst_of_not_dup {s : StoreState} {c : SendMessageInput}
    (h : isDuplicate s c = false) : (send s c).1 = true := by
  simp [send, h]

/-- An accepted send stores the appended-and-evicted thread list. -/
theorem threadMessages_send_of_not_dup {s : StoreState}
    {c : SendMessageInput} (h : isDuplicate s c = false) :
    threadMessages (send s c).2 c.threadId =
      enforceMaxMessages s.config.maxMessagesPerThread
        (threadMessages s c.threadId ++ [fullMessage s c]) := by
  simp only [send, h, Bool.false_eq_true, if_false]
  simp [threadMessages, mapGet_mapSet_self]

/-- `gcKeep` decides exactly the spec's removal condition. -/
theorem gcKeep_iff (cfg : MailboxStoreConfig) (c : Int)
    (m : MailboxMessage) :
    gcKeep cfg c m = true ↔
      ¬((∃ e, m.expiresAtStep = some e ∧ e ≤ c) ∨
        (∃ i, m.incorporatedAtStep = some i ∧
          i < c - cfg.snapshotRetentionSteps)) := by
  unfold gcKeep
  rcases he : m.expiresAtStep with _ | e <;>
    rcases hi : m.incorporatedAtStep with _ | i
  · simp
  · by_cases hi2 : i < c - cfg.snapshotRetentionSteps <;> simp [hi2]
  · by_cases he2 : e ≤ c <;> simp [he2]
  · by_cases he2 : e ≤ c <;>
      by_cases hi2 : i < c - cfg.snapshotRetentionSteps <;>
        simp [he2, hi2]

/-- Every message surviving a new-message append was already in the
thread or is the freshly built full message. -/
theorem mem_send_cases (s : StoreState) (c : SendMessageInput) :
    ∀ m ∈ threadMessages (send s c).2 c.threadId,
      m ∉ threadMessages s c.threadId → m = fullMessage s c := by
  intro m hm hnot
  by_cases hdup : isDuplicate s c = true
  · rw [send_of_dup hdup] at hm
    exact absurd hm hnot
  · have hdup2 : isDuplicate s c = false := by
      simpa using hdup
    rw [threadMessages_send_of_not_dup hdup2] at hm
    have hmem := enforceMaxMessages_subset _ _ m hm
    rcases List.mem_append.mp hmem with h | h
    · exact absurd h hnot
    · simpa using h

/-- The `query` filter decides exactly the conjunction of the five
optional conditions. -/
theorem queryKeep_iff (opts : QueryOptions) (cs : Int)
    (m : MailboxMessage) :
    queryKeep opts cs m = true ↔
      ((opts.status = some MessageStatus.pending →
          m.incorporatedAtStep = none) ∧
       (opts.status = some MessageStatus.incorporated →
          m.incorporatedAtStep ≠ none) ∧
       (∀ q, opts.minConfidence = some q → q ≤ m.confidence) ∧
       (∀ ts, opts.types = some ts → m.type ∈ ts) ∧
       (∀ n, opts.newerThanStep = some n → n < m.sentAtStep) ∧
       (∀ e, m.expiresAtStep = some e → cs < e)) := by
  rcases opts with ⟨st, mc, ty, li, ns⟩
  unfold queryKeep
  rcases hii : m.incorporatedAtStep with _ | i <;>
    rcases hee : m.expiresAtStep with _ | e <;>
      rcases st with _ | st <;>
        (try cases st) <;>
          rcases mc with _ | q <;>
            rcases ty with _ | ts <;>
              rcases ns with _ | n <;>
                simp [hii, hee, not_lt, not_le, List.contains,
                  imp_false, Option.isSome, Option.isNone]

/-! ## Claim theorems -/

/-- C9: `gc(threadId, atStep)` removes exactly the messages with
non-null `expiresAtStep ≤ atStep` and the incorporated messages with
`incorporatedAtStep < atStep - retentionWindow`, leaving every other
message of the thread unchanged; and after five sends at steps 1..5 with
TTL 3, `gc` at step 6 leaves exactly the messages sent at steps 4 and
5. -/
theorem gc_removes_exactly (s : StoreState) (threadId : String)
    (atStep : Int) :
    (threadMessages (gc s threadId atStep) threadId =
      (threadMessages s threadId).filter (fun (m : MailboxMessage) =>
        decide (¬((∃ e, m.expiresAtStep = some e ∧ e ≤ atStep) ∨
          (∃ i, m.incorporatedAtStep = some i ∧
            i < atStep - s.config.snapshotRetentionSteps))))) ∧
    (threadMessages (gc ttlStore "t" 6) "t").map
      (fun m => m.sentAtStep) = [4, 5] := by
  constructor
  · cases hfind : mapGet s.messages threadId with
    | none =>
        simp only [gc, hfind]
        have hempty : threadMessages s threadId = [] := by
          simp [threadMessages, hfind]
        simp [hempty]
    | some msgs =>
        simp only [gc, hfind]
        have h1 : threadMessages s threadId = msgs := by
          simp [threadMessages, hfind]
        have h2 : threadMessages
            { s with messages := (mapSet s.messages threadId
                (msgs.filter (gcKeep s.config atStep))) } threadId =
              msgs.filter (gcKeep s.config atStep) := by
          simp [threadMessages, mapGet_mapSet_self]
        rw [h2, h1]
        apply List.filter_congr
        intro m _
        exact bool_eq_decide (gcKeep_iff s.config atStep m)
  · decide

/-- C10: a send whose input `expiresAtStep` is null stores
`sentAtStep + defaultTtlSteps` instead, and no message stored through
`send` ever has a null `expiresAtStep`. -/
theorem send_fills_default_ttl (s : StoreState) (c : SendMessageInput) :
    (c.expiresAtStep = none →
      ∀ m ∈ threadMessages (send s c).2 c.threadId,
        m ∉ threadMessages s c.threadId →
          m.expiresAtStep = some (c.sentAtStep + s.config.defaultTtlSteps)) ∧
    (∀ m ∈ threadMessages (send s c).2 c.threadId,
        m ∉ threadMessages s c.threadId → m.expiresAtStep ≠ none) := by
  constructor
  · intro hnone m hm hnot
    rw [mem_send_cases s c m hm hnot]
    simp [fullMessage, hnone]
  · intro m hm hnot
    rw [mem_send_cases s c m hm hnot]
    simp [fullMessage]

/-- Witness for C10: the single message stored by sending `dupInput 1`
(null expiry) into the empty store expires at `1 + 10 = 11`. -/
theorem send_fills_default_ttl_witness :
    ((threadMessages (send emptyStore (dupInput 1)).2 "t").headD
        default).expiresAtStep = some 11 := by
  have h := (send_fills_default_ttl emptyStore (dupInput 1)).1 rfl
  exact h _ (by decide) (by decide)

/-- C4: `query` never returns a message whose non-null `expiresAtStep`
is at or below the reference step (`newerThanStep ?? 0`), even if not
yet collected; every returned message also passes all the other
optional filters; and without a limit, membership is exactly the AND of
the five filters over the thread's messages. -/
theorem query_filters (s : StoreState) (threadId : String)
    (opts : QueryOptions) :
    (∀ m ∈ query s threadId opts, ∀ e, m.expiresAtStep = some e →
        opts.newerThanStep.getD 0 < e) ∧
    (∀ m ∈ query s threadId opts,
       (opts.status = some MessageStatus.pending →
          m.incorporatedAtStep = none) ∧
       (opts.status = some MessageStatus.incorporated →
          m.incorporatedAtStep ≠ none) ∧
       (∀ q, opts.minConfidence = some q → q ≤ m.confidence) ∧
       (∀ ts, opts.types = some ts → m.type ∈ ts) ∧
       (∀ n, opts.newerThanStep = some n → n < m.sentAtStep)) ∧
    (opts.limit = none →
      ∀ m, m ∈ query s threadId opts ↔
        (m ∈ threadMessages s threadId ∧
         (opts.status = some MessageStatus.pending →
            m.incorporatedAtStep = none) ∧
         (opts.status = some MessageStatus.incorporated →
            m.incorporatedAtStep ≠ none) ∧
         (∀ q, opts.minConfidence = some q → q ≤ m.confidence) ∧
         (∀ ts, opts.types = some ts → m.type ∈ ts) ∧
         (∀ n, opts.newerThanStep = some n → n < m.sentAtStep) ∧
         (∀ e, m.expiresAtStep = some e →
            opts.newerThanStep.getD 0 < e))) := by
  have hfil : ∀ m ∈ query s threadId opts,
      m ∈ (threadMessages s threadId).filter
        (queryKeep opts (opts.newerThanStep.getD 0)) := by
    intro m hm
    rcases hl : opts.limit with _ | n <;> simp only [query, hl] at hm
    · exact (List.mem_insertionSort QueryOrder).mp hm
    · exact (List.mem_insertionSort QueryOrder).mp (List.take_subset n _ hm)
  refine ⟨?_, ?_, ?_⟩
  · intro m hm
    exact ((queryKeep_iff opts _ m).mp
      (List.mem_filter.mp (hfil m hm)).2).2.2.2.2.2
  · intro m hm
    have h := (queryKeep_iff opts _ m).mp
      (List.mem_filter.mp (hfil m hm)).2
    exact ⟨h.1, h.2.1, h.2.2.1, h.2.2.2.1, h.2.2.2.2.1⟩
  · intro hl m
    constructor
    · intro hm
      have h := List.mem_filter.mp (hfil m hm)
      have h2 := (queryKeep_iff opts _ m).mp h.2
      exact ⟨h.1, h2.1, h2.2.1, h2.2.2.1, h2.2.2.2.1, h2.2.2.2.2.1,
        h2.2.2.2.2.2⟩
    · intro hm
      simp only [query, hl]
      rw [List.mem_insertionSort, List.mem_filter]
      exact ⟨hm.1, (queryKeep_iff opts _ m).mpr
        ⟨hm.2.1, hm.2.2.1, hm.2.2.2.1, hm.2.2.2.2.1, hm.2.2.2.2.2.1,
          hm.2.2.2.2.2.2⟩⟩

/-- Witness for C4: the message stored in `oneMsgStore` (expiry 11 > 0)
is returned by an unfiltered query. -/
theorem query_filters_witness :
    fullMessage emptyStore (dupInput 1) ∈
      query oneMsgStore "t" ({} : QueryOptions) := by
  have h := (query_filters oneMsgStore "t" {}).2.2 rfl
    (fullMessage emptyStore (dupInput 1))
  apply h.mpr
  refine ⟨by decide, by simp, by simp, ?_, ?_, ?_, ?_⟩
  · intro q hq
    exact absurd hq (by simp)
  · intro ts hts
    exact absurd hts (by simp)
  · intro n hn
    exact absurd hn (by simp)
  · intro e he
    simp [fullMessage, dupInput, emptyStore, DEFAULT_MAILBOX_CONFIG] at he
    have h0 : (({} : QueryOptions).newerThanStep).getD 0 = 0 := rfl
    rw [h0]
    omega

/-- Sorted lists that are permutations of each other and whose relation
is antisymmetric on their members are equal. -/
theorem pairwise_perm_eq {α : Type} {r : α → α → Prop} :
    ∀ {l₁ l₂ : List α}, List.Perm l₁ l₂ → l₁.Pairwise r → l₂.Pairwise r →
      (∀ a ∈ l₁, ∀ b ∈ l₁, r a b → r b a → a = b) → l₁ = l₂ := by
  intro l₁
  induction l₁ with
  | nil =>
      intro l₂ h _ _ _
      exact (h.symm.eq_nil).symm
  | cons a t ih =>
      intro l₂ h s₁ s₂ anti
      cases l₂ with
      | nil => exact absurd h.eq_nil (by simp)
      | cons b u =>
          have hab : a = b := by
            by_contra hne
            have hb1 : b ∈ a :: t := h.symm.subset (by simp)
            have hbt : b ∈ t := by
              rcases List.mem_cons.mp hb1 with hba | hbt
              · exact absurd hba.symm hne
              · exact hbt
            have ha2 : a ∈ u := by
              have : a ∈ b :: u := h.subset (by simp)
              rcases List.mem_cons.mp this with hba | hau
              · exact absurd hba hne
              · exact hau
            have rab : r a b := (List.pairwise_cons.mp s₁).1 b hbt
            have rba : r b a := (List.pairwise_cons.mp s₂).1 a ha2
            exact hne (anti a (by simp) b hb1 rab rba)
          subst hab
          have ht : List.Perm t u := h.cons_inv
          have hteq : t = u := by
            refine ih ht s₁.of_cons s₂.of_cons ?_
            intro x hx y hy rxy ryx
            exact anti x (by simp [hx]) y (by simp [hy]) rxy ryx
          rw [hteq]

/-- C6: query results are sorted by confidence descending with ties by
sent-at-step descending; a limit truncates after sorting; the result is
insertion-order independent whenever the (confidence, step) keys are
distinct; and the spec's 0.9/0.7/0.5 example comes back in sorted
order. -/
theorem query_sort_contract (s₁ s₂ : StoreState) (threadId : String)
    (opts : QueryOptions) :
    List.Pairwise QueryOrder (query s₁ threadId opts) ∧
    (∀ n, opts.limit = some n →
      query s₁ threadId opts =
        (query s₁ threadId { opts with limit := none }).take n) ∧
    (List.Perm (threadMessages s₁ threadId) (threadMessages s₂ threadId) →
      (∀ a ∈ threadMessages s₁ threadId, ∀ b ∈ threadMessages s₁ threadId,
        a.confidence = b.confidence → a.sentAtStep = b.sentAtStep →
          a = b) →
      query s₁ threadId opts = query s₂ threadId opts) ∧
    (query ordStore "t" {}).map (fun m => m.confidence) =
      [mkRat 9 10, mkRat 7 10, mkRat 1 2] := by
  refine ⟨?_, ?_, ?_, by decide⟩
  · have hs := List.sorted_insertionSort QueryOrder
      ((threadMessages s₁ threadId).filter
        (queryKeep opts (opts.newerThanStep.getD 0)))
    rcases hl : opts.limit with _ | n <;> simp only [query, hl]
    · exact hs
    · exact hs.take
  · intro n hl
    simp only [query, hl]
    rfl
  · intro hperm hinj
    have hfil : List.Perm
        ((threadMessages s₁ threadId).filter
          (queryKeep opts (opts.newerThanStep.getD 0)))
        ((threadMessages s₂ threadId).filter
          (queryKeep opts (opts.newerThanStep.getD 0))) :=
      hperm.filter _
    have hsortedperm : List.Perm
        (((threadMessages s₁ threadId).filter
          (queryKeep opts (opts.newerThanStep.getD 0))).insertionSort
            QueryOrder)
        (((threadMessages s₂ threadId).filter
          (queryKeep opts (opts.newerThanStep.getD 0))).insertionSort
            QueryOrder) :=
      (List.perm_insertionSort _ _).trans
        (hfil.trans (List.perm_insertionSort _ _).symm)
    have heq :
        ((threadMessages s₁ threadId).filter
          (queryKeep opts (opts.newerThanStep.getD 0))).insertionSort
            QueryOrder =
        ((threadMessages s₂ threadId).filter
          (queryKeep opts (opts.newerThanStep.getD 0))).insertionSort
            QueryOrder := by
      refine pairwise_perm_eq hsortedperm
        (List.sorted_insertionSort QueryOrder _)
        (List.sorted_insertionSort QueryOrder _) ?_
      intro a ha c hc rac rca
      have ha2 : a ∈ threadMessages s₁ threadId :=
        (List.mem_filter.mp ((List.mem_insertionSort _).mp ha)).1
      have hc2 : c ∈ threadMessages s₁ threadId :=
        (List.mem_filter.mp ((List.mem_insertionSort _).mp hc)).1
      have hconf : a.confidence = c.confidence := by
        rcases rac with h1 | ⟨h1, _⟩
        · rcases rca with h2 | ⟨h2, _⟩
          · exact absurd h2 (lt_asymm h1)
          · exact h2
        · exact h1.symm
      have hstep : a.sentAtStep = c.sentAtStep := by
        have h1 : c.sentAtStep ≤ a.sentAtStep := by
          rcases rac with h1 | ⟨_, h1⟩
          · exact absurd h1 (by rw [hconf]; exact lt_irrefl _)
          · exact h1
        have h2 : a.sentAtStep ≤ c.sentAtStep := by
          rcases rca with h2 | ⟨_, h2⟩
          · exact absurd h2 (by rw [hconf]; exact lt_irrefl _)
          · exact h2
        exact le_antisymm h2 h1
      exact hinj a ha2 c hc2 hconf hstep
    rcases hl : opts.limit with _ | n <;> simp only [query, hl] <;>
      rw [heq]

/-- Witness for C6: on the shuffled store, a limit-2 query equals the
unlimited query truncated to its first two elements. -/
theorem query_sort_contract_witness :
    query ordStore "t" { limit := some 2 } =
      (query ordStore "t"
        { ({ limit := some 2 } : QueryOptions) with limit := none }).take 2 :=
  (query_sort_contract ordStore ordStore "t" { limit := some 2 }).2.1 2 rfl

/-- A nonempty eviction round removes one message that is oldest among
the incorporated ones when any exist, and oldest overall otherwise. -/
theorem evictRound_removes_oldest (l : List MailboxMessage) (hne : l ≠ []) :
    ∃ m ∈ l,
      ((∃ x ∈ l, x.incorporatedAtStep ≠ none) →
          (m.incorporatedAtStep ≠ none ∧
           ∀ x ∈ l, x.incorporatedAtStep ≠ none →
             m.sentAtStep ≤ x.sentAtStep)) ∧
      ((∀ x ∈ l, x.incorporatedAtStep = none) →
          ∀ x ∈ l, m.sentAtStep ≤ x.sentAtStep) ∧
      List.Perm (evictRound l) (l.erase m) := by
  unfold evictRound
  cases hmin : ((l.filter (fun m => m.incorporatedAtStep.isSome)).map
      (fun m => m.sentAtStep)).min? with
  | none =>
      simp only [hmin]
      have hmape : ((l.filter (fun m => m.incorporatedAtStep.isSome)).map
          (fun m => m.sentAtStep)) = [] := by
        cases hc : ((l.filter (fun m => m.incorporatedAtStep.isSome)).map
            (fun m => m.sentAtStep)) with
        | nil => rfl
        | cons a t =>
            rw [hc] at hmin
            simp [List.min?_cons] at hmin
      have hfe : l.filter (fun m => m.incorporatedAtStep.isSome) = [] := by
        cases hc : l.filter (fun m => m.incorporatedAtStep.isSome) with
        | nil => rfl
        | cons a t =>
            rw [hc] at hmape
            simp at hmape
      have hall : ∀ x ∈ l, x.incorporatedAtStep = none := by
        intro x hx
        by_contra hxn
        have : x ∈ l.filter (fun m => m.incorporatedAtStep.isSome) := by
          rw [List.mem_filter]
          exact ⟨hx, by simp [Option.isSome_iff_ne_none, hxn]⟩
        rw [hfe] at this
        simp at this
      obtain ⟨m, tl, hsorted⟩ : ∃ m tl,
          l.insertionSort StepOrder = m :: tl := by
        cases hs : l.insertionSort StepOrder with
        | nil =>
            have hlen := List.length_insertionSort StepOrder l
            rw [hs] at hlen
            simp at hlen
            exact absurd (List.length_eq_zero.mp hlen.symm) hne
        | cons m tl => exact ⟨m, tl, rfl⟩
      have hmem : m ∈ l := by
        rw [← List.mem_insertionSort StepOrder, hsorted]
        simp
      refine ⟨m, hmem, ?_, ?_, ?_⟩
      · intro hex
        rcases hex with ⟨x, hx, hxn⟩
        exact absurd (hall x hx) hxn
      · intro _ x hx
        have hx2 : x ∈ l.insertionSort StepOrder :=
          (List.mem_insertionSort StepOrder).mpr hx
        rw [hsorted] at hx2
        rcases List.mem_cons.mp hx2 with rfl | hx3
        · exact le_refl _
        · have hpair : List.Pairwise StepOrder (m :: tl) := by
            rw [← hsorted]
            exact List.sorted_insertionSort StepOrder l
          exact List.rel_of_pairwise_cons hpair hx3
      · have hperm : List.Perm (l.insertionSort StepOrder) l :=
          List.perm_insertionSort StepOrder l
        have h1 : List.Perm ((l.insertionSort StepOrder).erase m)
            (l.erase m) := hperm.erase m
        rw [hsorted, List.erase_cons_head] at h1
        rw [hsorted]
        exact h1
  | some k =>
      simp only [hmin]
      have hk := List.min?_mem (fun a b => min_choice a b) hmin
      rw [List.mem_map] at hk
      obtain ⟨m0, hm0, hk0⟩ := hk
      rw [List.mem_filter] at hm0
      have hex : ∃ x ∈ l, (fun m => m.incorporatedAtStep.isSome &&
          decide (m.sentAtStep = k)) x = true := by
        refine ⟨m0, hm0.1, ?_⟩
        simp [hm0.2, hk0]
      have hidx := List.findIdx_lt_length_of_exists hex
      have hw : l[l.findIdx (fun m => m.incorporatedAtStep.isSome &&
          decide (m.sentAtStep = k))]? =
            some (l.get ⟨l.findIdx (fun m => m.incorporatedAtStep.isSome &&
              decide (m.sentAtStep = k)), hidx⟩) :=
        List.getElem?_eq_getElem hidx
      have hp0 := List.findIdx_of_getElem?_eq_some hw
      have hp : ((l.get ⟨l.findIdx (fun m => m.incorporatedAtStep.isSome &&
            decide (m.sentAtStep = k)), hidx⟩).incorporatedAtStep.isSome &&
          decide ((l.get ⟨l.findIdx (fun m => m.incorporatedAtStep.isSome &&
            decide (m.sentAtStep = k)), hidx⟩).sentAtStep = k)) = true := hp0
      rw [Bool.and_eq_true, decide_eq_true_eq] at hp
      refine ⟨l.get ⟨l.findIdx (fun m => m.incorporatedAtStep.isSome &&
        decide (m.sentAtStep = k)), hidx⟩, List.get_mem l _ hidx, ?_, ?_, ?_⟩
      · intro _
        constructor
        · simpa [Option.isSome_iff_ne_none] using hp.1
        · intro x hx hxn
          rw [hp.2]
          have hxs : x.sentAtStep ∈ ((l.filter
              (fun m => m.incorporatedAtStep.isSome)).map
                (fun m => m.sentAtStep)) := by
            refine List.mem_map_of_mem _ ?_
            rw [List.mem_filter]
            exact ⟨hx, by simpa [Option.isSome_iff_ne_none] using hxn⟩
          exact (List.le_min?_iff (fun a b c => le_min_iff) hmin).mp
            (le_refl k) _ hxs
      · intro hall
        have hnone := hall _ (List.get_mem l
          (l.findIdx (fun m => m.incorporatedAtStep.isSome &&
            decide (m.sentAtStep = k))) hidx)
        rw [hnone] at hp
        simp at hp
      · exact (List.erase_getElem hidx).symm

/-- C5: after appending, the store evicts while the thread exceeds
`maxMessagesPerThread`; each round removes one message — the oldest
incorporated one if any incorporated message exists, otherwise the
oldest pending one — the loop (totally defined here, hence terminating)
stops as soon as the limit is respected, and consequently an accepted
send leaves the thread with at most `maxMessagesPerThread` messages for
any positive limit. -/
theorem send_enforces_max (s : StoreState) (c : SendMessageInput) :
    (∀ maxP l, maxP < l.length →
        enforceMaxMessages maxP l = enforceMaxMessages maxP (evictRound l)) ∧
    (∀ maxP l, ¬ maxP < l.length → enforceMaxMessages maxP l = l) ∧
    (∀ l, l ≠ [] →
      ∃ m ∈ l,
        ((∃ x ∈ l, x.incorporatedAtStep ≠ none) →
            (m.incorporatedAtStep ≠ none ∧
             ∀ x ∈ l, x.incorporatedAtStep ≠ none →
               m.sentAtStep ≤ x.sentAtStep)) ∧
        ((∀ x ∈ l, x.incorporatedAtStep = none) →
            ∀ x ∈ l, m.sentAtStep ≤ x.sentAtStep) ∧
        List.Perm (evictRound l) (l.erase m)) ∧
    (0 < s.config.maxMessagesPerThread → (send s c).1 = true →
      getMessageCount (send s c).2 c.threadId ≤
        s.config.maxMessagesPerThread) := by
  refine ⟨enforceMaxMessages_step, enforceMaxMessages_of_le,
    evictRound_removes_oldest, ?_⟩
  intro _ hsend
  by_cases hdup : isDuplicate s c = true
  · rw [send_of_dup hdup] at hsend
    simp at hsend
  · have hdup2 : isDuplicate s c = false := by simpa using hdup
    unfold getMessageCount
    rw [threadMessages_send_of_not_dup hdup2]
    exact enforceMaxMessages_length _ _

/-- Witness for C5: an accepted send into the empty store leaves at
most the default 50 messages in the thread. -/
theorem send_enforces_max_witness :
    getMessageCount (send emptyStore (dupInput 1)).2 "t" ≤
      emptyStore.config.maxMessagesPerThread :=
  (send_enforces_max emptyStore (dupInput 1)).2.2.2 (by decide) (by decide)

/-- C1 counterexample: a same-content message sent at step 100 — outside
the claim's closed interval `[-5, 0]` for a candidate at step 0 — still
makes `send` reject, because the source checks only the lower bound of
the window.  So rejection is not equivalent to the closed-interval
condition. -/
theorem send_dedup_closed_window_counterexample :
    ¬ ((((send futureStore (dupInput 0)).1 = false ∧
          (send futureStore (dupInput 0)).2 = futureStore) ↔
        dupWithinClosedWindow futureStore (dupInput 0))) := by
  decide

/-- C1 (amended): `send` rejects without side effect iff some existing
message of the thread shares the candidate's content fingerprint and
was sent at or after `sentAtStep - dedupeWindowSteps` (no upper bound);
otherwise it returns `true` and, below capacity, appends exactly the
one new full message; two identical-content sends within the window
give `true` then `false` and leave one message. -/
theorem send_dedup_amended (s : StoreState) (c : SendMessageInput) :
    (((send s c).1 = false ∧ (send s c).2 = s) ↔
      ∃ m ∈ threadMessages s c.threadId,
        m.contentHash = computeContentHash c.content ∧
          c.sentAtStep - s.config.dedupeWindowSteps ≤ m.sentAtStep) ∧
    ((∀ m ∈ threadMessages s c.threadId,
        ¬(m.contentHash = computeContentHash c.content ∧
          c.sentAtStep - s.config.dedupeWindowSteps ≤ m.sentAtStep)) →
      ((send s c).1 = true ∧
        ((threadMessages s c.threadId).length <
            s.config.maxMessagesPerThread →
          threadMessages (send s c).2 c.threadId =
            threadMessages s c.threadId ++ [fullMessage s c]))) ∧
    ((send emptyStore (dupInput 1)).1 = true ∧
      (send (send emptyStore (dupInput 1)).2 (dupInput 2)).1 = false ∧
      getMessageCount
        (send (send emptyStore (dupInput 1)).2 (dupInput 2)).2 "t" = 1) := by
  refine ⟨?_, ?_, by decide⟩
  · constructor
    · rintro ⟨hfalse, -⟩
      by_cases hdup : isDuplicate s c = true
      · exact (isDuplicate_iff s c).mp hdup
      · have : (send s c).1 = true :=
          send_fst_of_not_dup (by simpa using hdup)
        rw [hfalse] at this
        simp at this
    · intro hex
      have hdup : isDuplicate s c = true := (isDuplicate_iff s c).mpr hex
      rw [send_of_dup hdup]
      exact ⟨rfl, rfl⟩
  · intro hno
    have hdup : isDuplicate s c = false := by
      by_contra hd
      have hd2 : isDuplicate s c = true := by simpa using hd
      obtain ⟨m, hm, hcond⟩ := (isDuplicate_iff s c).mp hd2
      exact hno m hm hcond
    refine ⟨send_fst_of_not_dup hdup, ?_⟩
    intro hlt
    rw [threadMessages_send_of_not_dup hdup]
    apply enforceMaxMessages_of_le
    rw [List.length_append]
    simp
    omega

/-- Witness for C1: re-sending the `"same"` content at step 2 into the
store that already holds it at step 1 rejects and leaves the store
unchanged. -/
theorem send_dedup_amended_witness :
    (send oneMsgStore (dupInput 2)).1 = false ∧
      (send oneMsgStore (dupInput 2)).2 = oneMsgStore :=
  (send_dedup_amended oneMsgStore (dupInput 2)).1.mpr
    ⟨fullMessage emptyStore (dupInput 1), by decide, by decide, by decide⟩

/-- C2 counterexample: the code re-marks an already-incorporated
message — `markIncorporated(["msg-0"], 7)` on a message already
incorporated at step 3 overwrites the step with 7, where the claim
(null-guarded `markIncorporatedSpec`) keeps 3. -/
theorem markIncorporated_overwrites_counterexample :
    markIncorporated markedAt3 ["msg-0"] 7 ≠
        markIncorporatedSpec markedAt3 ["msg-0"] 7 ∧
      (threadMessages (markIncorporated markedAt3 ["msg-0"] 7) "t").map
        (fun m => m.incorporatedAtStep) = [some 7] ∧
      (threadMessages (markIncorporatedSpec markedAt3 ["msg-0"] 7) "t").map
        (fun m => m.incorporatedAtStep) = [some 3] := by
  decide

/-- C2 (amended): `markIncorporated` sets `incorporatedAtStep := atStep`
for every matching message regardless of whether it was already
incorporated (a later call overwrites the step), changes no other field
and no non-matching message, and is a no-op (not an error) when no
stored message matches. -/
theorem markIncorporated_sets_all_matching (s : StoreState)
    (ids : List String) (atStep : Int) :
    (∀ t, threadMessages (markIncorporated s ids atStep) t =
      (threadMessages s t).map (fun m =>
        if ids.contains m.id then
          { m with incorporatedAtStep := some atStep }
        else
          m)) ∧
    ((∀ p ∈ s.messages, ∀ m ∈ p.2, ¬ ids.contains m.id) →
      markIncorporated s ids atStep = s) := by
  constructor
  · intro t
    unfold markIncorporated threadMessages
    rw [mapGet_map_values]
    cases mapGet s.messages t <;> simp
  · intro h
    unfold markIncorporated
    have hmap : s.messages.map (fun p => (p.1, p.2.map (fun m =>
        if ids.contains m.id then
          { m with incorporatedAtStep := some atStep }
        else
          m))) = s.messages := by
      have h1 : ∀ p ∈ s.messages, (p.1, p.2.map (fun m =>
          if ids.contains m.id then
            { m with incorporatedAtStep := some atStep }
          else
            m)) = p := by
        intro p hp
        have h2 : p.2.map (fun m =>
            if ids.contains m.id then
              { m with incorporatedAtStep := some atStep }
            else
              m) = p.2 := by
          have h3 : ∀ m ∈ p.2, (if ids.contains m.id then
              { m with incorporatedAtStep := some atStep }
            else
              m) = m := by
            intro m hm
            rw [if_neg (h p hp m hm)]
          calc p.2.map (fun m => if ids.contains m.id then
                  { m with incorporatedAtStep := some atStep }
                else m)
              = p.2.map id := List.map_congr_left h3
            _ = p.2 := List.map_id p.2
        rw [h2]
      calc s.messages.map (fun p => (p.1, p.2.map (fun m =>
              if ids.contains m.id then
                { m with incorporatedAtStep := some atStep }
              else m)))
          = s.messages.map id := List.map_congr_left h1
        _ = s.messages := List.map_id s.messages
    rw [hmap]

/-- Witness for C2: marking an id that is not stored anywhere leaves
the store untouched. -/
theorem markIncorporated_sets_all_matching_witness :
    markIncorporated oneMsgStore ["zzz"] 5 = oneMsgStore :=
  (markIncorporated_sets_all_matching oneMsgStore ["zzz"] 5).2 (by decide)

/-- Invariant of the retry loop, for any starting attempt `a` with `r`
retries remaining: the final attempt count lies in `[a+1, a+r+1]`, the
recorded backoff delays are `base * 2^(a+i)` in order, an error is
reported only when every attempt in `[a, a+r]` failed (with the final
error and the total count `a+r+1`), and any success in range means no
report. -/
theorem retryGo_spec (base : ℚ) (outcome : Nat → Option String) :
    ∀ r a,
      (retryGo base outcome a r).attempts ≤ a + r + 1 ∧
      a + 1 ≤ (retryGo base outcome a r).attempts ∧
      (retryGo base outcome a r).delays =
        (List.range ((retryGo base outcome a r).attempts - 1 - a)).map
          (fun i => base * 2 ^ (a + i)) ∧
      (∀ e n, (retryGo base outcome a r).reported = some (e, n) →
        n = a + r + 1 ∧ n = (retryGo base outcome a r).attempts ∧
        (∀ i, a ≤ i → i ≤ a + r → outcome i ≠ none) ∧
        outcome (a + r) = some e) ∧
      ((∃ i, a ≤ i ∧ i ≤ a + r ∧ outcome i = none) →
        (retryGo base outcome a r).reported = none) := by
  intro r
  induction r with
  | zero =>
      intro a
      cases hoc : outcome a with
      | none =>
          refine ⟨?_, ?_, ?_, ?_, ?_⟩ <;> simp [retryGo, hoc]
      | some e0 =>
          refine ⟨?_, ?_, ?_, ?_, ?_⟩
          · simp [retryGo, hoc]
          · simp [retryGo, hoc]
          · simp [retryGo, hoc]
          · intro e n hrep
            simp [retryGo, hoc] at hrep
            refine ⟨by omega, by simp [retryGo, hoc]; omega, ?_, ?_⟩
            · intro i hai hia
              have : i = a := by omega
              subst this
              simp [hoc]
            · rw [Nat.add_zero, hoc]
              exact congrArg some hrep.1
          · rintro ⟨i, hai, hia, hnone⟩
            have : i = a := by omega
            subst this
            rw [hoc] at hnone
            simp at hnone
  | succ r ih =>
      intro a
      cases hoc : outcome a with
      | none =>
          refine ⟨?_, ?_, ?_, ?_, ?_⟩ <;> simp [retryGo, hoc]
      | some e0 =>
          have hrest := ih (a + 1)
          obtain ⟨hub, hlb, hdel, hrep, hsucc⟩ := hrest
          have hgo : retryGo base outcome a (r + 1) =
              { retryGo base outcome (a + 1) r with
                  delays := base * 2 ^ a ::
                    (retryGo base outcome (a + 1) r).delays } := by
            simp [retryGo, hoc]
          refine ⟨?_, ?_, ?_, ?_, ?_⟩
          · rw [hgo]
            dsimp only
            omega
          · rw [hgo]
            dsimp only
            omega
          · rw [hgo]
            dsimp only
            rw [hdel]
            have hsplit : (retryGo base outcome (a + 1) r).attempts - 1 - a =
                ((retryGo base outcome (a + 1) r).attempts - 1 - (a + 1)) + 1 := by
              omega
            rw [hsplit, List.range_succ_eq_map, List.map_cons]
            simp only [List.map_map, Nat.add_zero]
            congr 1
            apply List.map_congr_left
            intro i _
            have hh : a + Nat.succ i = a + 1 + i := by omega
            simp [Function.comp, hh]
          · intro e n hrepn
            rw [hgo] at hrepn
            dsimp only at hrepn
            obtain ⟨hn1, hn2, hall, hlast⟩ := hrep e n hrepn
            refine ⟨by omega, ?_, ?_, ?_⟩
            · rw [hgo]
              dsimp only
              exact hn2
            · intro i hai hia
              rcases Nat.eq_or_lt_of_le hai with rfl | hlt
              · simp [hoc]
              · exact hall i (by omega) (by omega)
            · have : a + 1 + r = a + (r + 1) := by omega
              rw [← this]
              exact hlast
          · rintro ⟨i, hai, hia, hnone⟩
            rw [hgo]
            dsimp only
            apply hsucc
            have hne : i ≠ a := by
              intro hia2
              subst hia2
              rw [hoc] at hnone
              simp at hnone
            exact ⟨i, by omega, by omega, hnone⟩

/-- C7: the handler is attempted at most `maxRetries + 1` times, the
recorded delay between attempt `i` and `i + 1` is `baseDelay * 2 ^ i`,
a single error is reported (with the total attempt count
`maxRetries + 1`) only when every attempt failed, and a success on any
attempt — also after earlier failures — reports no error. -/
theorem executeObservers_retry_contract (maxRetries : Nat)
    (baseDelayMs : ℚ) (outcome : Nat → Option String) :
    (executeObservers maxRetries baseDelayMs outcome).attempts ≤
        maxRetries + 1 ∧
    (executeObservers maxRetries baseDelayMs outcome).delays =
      (List.range
          ((executeObservers maxRetries baseDelayMs outcome).attempts - 1)).map
        (fun i => baseDelayMs * 2 ^ i) ∧
    (∀ e n, (executeObservers maxRetries baseDelayMs outcome).reported =
        some (e, n) →
      n = maxRetries + 1 ∧
      n = (executeObservers maxRetries baseDelayMs outcome).attempts ∧
      (∀ i, i ≤ maxRetries → outcome i ≠ none) ∧
      outcome maxRetries = some e) ∧
    ((∃ i, i ≤ maxRetries ∧ outcome i = none) →
      (executeObservers maxRetries baseDelayMs outcome).reported = none) := by
  obtain ⟨hub, hlb, hdel, hrep, hsucc⟩ :=
    retryGo_spec baseDelayMs outcome maxRetries 0
  refine ⟨?_, ?_, ?_, ?_⟩
  · simpa [executeObservers] using hub
  · unfold executeObservers
    rw [hdel]
    simp only [Nat.sub_zero, Nat.zero_add]
  · intro e n hr
    obtain ⟨hn1, hn2, hall, hlast⟩ := hrep e n hr
    exact ⟨by omega, hn2, fun i hi => hall i (by omega) (by omega),
      by simpa using hlast⟩
  · rintro ⟨i, hi, hnone⟩
    exact hsucc ⟨i, by omega, by omega, hnone⟩

/-- Witness for C7: an always-failing handler with `maxRetries = 2` and
base delay 100 is attempted exactly 3 times, sleeps 100 then 200
between attempts, and reports the final error with attempt count 3. -/
theorem executeObservers_retry_contract_witness :
    (executeObservers 2 100 (fun _ => some "boom")).reported =
        some ("boom", 3) ∧
      (executeObservers 2 100 (fun _ => some "boom")).attempts = 3 ∧
      (executeObservers 2 100 (fun _ => some "boom")).delays =
        (List.range 2).map (fun i => (100 : ℚ) * 2 ^ i) := by
  have h := executeObservers_retry_contract 2 100 (fun _ => some "boom")
  have hrep : (executeObservers 2 100 (fun _ => some "boom")).reported =
      some ("boom", 3) := rfl
  have hatt : (executeObservers 2 100 (fun _ => some "boom")).attempts = 3 :=
    ((h.2.2.1 "boom" 3 hrep).2.1).symm
  refine ⟨hrep, hatt, ?_⟩
  have hdel := h.2.1
  rw [hatt] at hdel
  exact hdel

/-- Moving a newly culled block `d` out of the kept part `k` and behind
the culled part `cl` preserves the partition. -/
theorem perm_step {α : Type} {k cl k₂ d msgs : List α}
    (h1 : List.Perm (k ++ cl) msgs) (h2 : List.Perm (k₂ ++ d) k) :
    List.Perm (k₂ ++ (cl ++ d)) msgs :=
  ((List.Perm.append_left k₂ List.perm_append_comm).trans
    ((List.Perm.of_eq (List.append_assoc k₂ d cl).symm).trans
      ((h2.append_right cl).trans h1)))

/-- Replacing the kept part by a permutation preserves the partition. -/
theorem perm_replace_left {α : Type} {k k₂ c msgs : List α}
    (hk : List.Perm k₂ k) (h : List.Perm (k ++ c) msgs) :
    List.Perm (k₂ ++ c) msgs :=
  (hk.append_right c).trans h

/-- The dedup loop splits its input into `unique ++ duplicates`. -/
theorem dedupGo_perm :
    ∀ (l : List MailboxMessage) (seen : List String),
      List.Perm ((dedupGo l seen).1 ++ (dedupGo l seen).2) l := by
  intro l
  induction l with
  | nil =>
      intro seen
      simp [dedupGo]
  | cons m rest ih =>
      intro seen
      by_cases hc : seen.contains m.contentHash
      · simp only [dedupGo, hc, if_true]
        exact List.perm_middle.trans ((ih seen).cons m)
      · simp only [dedupGo, hc, if_false]
        exact (ih (m.contentHash :: seen)).cons m

/-- `deduplicate` splits its input into `unique ++ duplicates`. -/
theorem deduplicate_perm (messages : List MailboxMessage) :
    List.Perm ((deduplicate messages).1 ++ (deduplicate messages).2)
      messages :=
  (dedupGo_perm _ []).trans (List.perm_insertionSort NewestOrder messages)

/-- `sortByPriority` permutes its input. -/
theorem sortByPriority_perm (messages : List MailboxMessage)
    (priority : RetentionPriority) :
    List.Perm (sortByPriority messages priority) messages := by
  cases priority <;> exact List.perm_insertionSort _ _

/-- `applyPolicy` partitions its input into `keep ++ cull`, and its
dedup and confidence tallies count (disjoint parts of) the culled
list. -/
theorem applyPolicy_partition (messages : List MailboxMessage)
    (policy : RetentionPolicy) :
    List.Perm ((applyPolicy messages policy).keep ++
        (applyPolicy messages policy).cull) messages ∧
      (applyPolicy messages policy).dedupCulled +
          (applyPolicy messages policy).confidenceCulled ≤
        (applyPolicy messages policy).cull.length := by
  have hsort : ∀ (k₂ c₂ : List MailboxMessage) (pr : RetentionPriority),
      List.Perm (k₂ ++ c₂) messages →
        List.Perm (sortByPriority k₂ pr ++ c₂) messages :=
    fun k₂ c₂ pr h => perm_replace_left (sortByPriority_perm k₂ pr) h
  have hcap : ∀ (k₃ c₂ : List MailboxMessage) (mc : Nat),
      List.Perm (k₃ ++ c₂) messages →
        List.Perm (k₃.take mc ++ (c₂ ++ k₃.drop mc)) messages :=
    fun k₃ c₂ mc h => perm_step h (List.Perm.of_eq (List.take_append_drop mc k₃))
  unfold applyPolicy
  rcases hmc : policy.minConfidence with _ | c <;>
    rcases hdd : policy.dedupe.getD false with _ | _ <;>
      rcases hmx : policy.maxCount with _ | mc <;>
        simp only [hmc, hdd, hmx] <;>
          simp only [Bool.false_eq_true, if_true, if_false,
            List.nil_append, List.append_nil]
  case none.false.none =>
    exact ⟨sortByPriority_perm _ _, by simp⟩
  case none.false.some =>
    by_cases hlt : mc < (sortByPriority messages
        (policy.priority.getD RetentionPriority.newest)).length
    · simp only [if_pos hlt]
      exact ⟨(List.Perm.of_eq (List.take_append_drop mc _)).trans
        (sortByPriority_perm _ _), by simp⟩
    · simp only [if_neg hlt]
      exact ⟨hsort messages [] _ (by simp), by simp⟩
  case none.true.none =>
    exact ⟨hsort _ _ _ (deduplicate_perm messages), by simp⟩
  case none.true.some =>
    by_cases hlt : mc < (sortByPriority (deduplicate messages).1
        (policy.priority.getD RetentionPriority.newest)).length
    · simp only [if_pos hlt]
      refine ⟨hcap _ _ _ (hsort _ _ _ (deduplicate_perm messages)), ?_⟩
      simp [List.length_append]
    · simp only [if_neg hlt]
      exact ⟨hsort _ _ _ (deduplicate_perm messages), by simp⟩
  case some.false.none =>
    refine ⟨hsort _ _ _ ?_, by simp⟩
    simpa [filterByConfidence] using
      List.filter_append_perm (fun m => decide (c ≤ m.confidence)) messages
  case some.false.some =>
    have hbase : List.Perm ((filterByConfidence messages c).1 ++
        (filterByConfidence messages c).2) messages := by
      simpa [filterByConfidence] using
        List.filter_append_perm (fun m => decide (c ≤ m.confidence)) messages
    by_cases hlt : mc < (sortByPriority (filterByConfidence messages c).1
        (policy.priority.getD RetentionPriority.newest)).length
    · simp only [if_pos hlt]
      refine ⟨hcap _ _ _ (hsort _ _ _ hbase), ?_⟩
      simp [List.length_append]
    · simp only [if_neg hlt]
      exact ⟨hsort _ _ _ hbase, by simp⟩
  case some.true.none =>
    have hbase : List.Perm ((filterByConfidence messages c).1 ++
        (filterByConfidence messages c).2) messages := by
      simpa [filterByConfidence] using
        List.filter_append_perm (fun m => decide (c ≤ m.confidence)) messages
    refine ⟨hsort _ _ _ (perm_step hbase (deduplicate_perm _)), ?_⟩
    simp [List.length_append]
    omega
  case some.true.some =>
    have hbase : List.Perm ((filterByConfidence messages c).1 ++
        (filterByConfidence messages c).2) messages := by
      simpa [filterByConfidence] using
        List.filter_append_perm (fun m => decide (c ≤ m.confidence)) messages
    have hbase2 := perm_step hbase
      (deduplicate_perm (filterByConfidence messages c).1)
    by_cases hlt : mc < (sortByPriority
        (deduplicate (filterByConfidence messages c).1).1
        (policy.priority.getD RetentionPriority.newest)).length
    · simp only [if_pos hlt]
      refine ⟨hcap _ _ _ (hsort _ _ _ hbase2), ?_⟩
      simp [List.length_append]
      omega
    · simp only [if_neg hlt]
      refine ⟨hsort _ _ _ hbase2, ?_⟩
      simp [List.length_append]
      omega

/-- Four-block shuffle: regroup kept and culled blocks. -/
theorem perm_four {α : Type} (k kk c cc : List α) :
    List.Perm ((k ++ kk) ++ (c ++ cc)) ((k ++ c) ++ (kk ++ cc)) :=
  (List.Perm.of_eq (List.append_assoc k kk (c ++ cc))).trans
    ((List.Perm.append_left k (List.perm_append_comm_assoc kk c cc)).trans
      (List.Perm.of_eq (List.append_assoc k c (kk ++ cc)).symm))

/-- Appending a message to its group appends it to the flattened
contents, up to permutation. -/
theorem addToGroup_flatten (groups : List (MessageType × List MailboxMessage))
    (m : MailboxMessage) :
    List.Perm (((addToGroup groups m).map (fun p => p.2)).flatten)
      ((groups.map (fun p => p.2)).flatten ++ [m]) := by
  induction groups with
  | nil => simp [addToGroup]
  | cons p rest ih =>
      obtain ⟨t, ms⟩ := p
      by_cases ht : t == m.type
      · simp only [addToGroup, ht, if_true, List.map_cons, List.flatten_cons]
        refine (List.Perm.of_eq (List.append_assoc ms [m] _)).trans ?_
        refine (List.Perm.append_left ms List.perm_append_comm).trans ?_
        exact List.Perm.of_eq (List.append_assoc ms _ [m]).symm
      · simp only [addToGroup, ht, if_false, List.map_cons, List.flatten_cons]
        refine (List.Perm.append_left ms ih).trans ?_
        exact List.Perm.of_eq (List.append_assoc ms _ [m]).symm

/-- Grouping by type permutes the input. -/
theorem groupByType_flatten (messages : List MailboxMessage) :
    List.Perm (((groupByType messages).map (fun p => p.2)).flatten)
      messages := by
  suffices h : ∀ (msgs : List MailboxMessage)
      (acc : List (MessageType × List MailboxMessage)),
      List.Perm (((msgs.foldl addToGroup acc).map (fun p => p.2)).flatten)
        ((acc.map (fun p => p.2)).flatten ++ msgs) by
    simpa [groupByType] using h messages []
  intro msgs
  induction msgs with
  | nil =>
      intro acc
      simp
  | cons m rest ih =>
      intro acc
      simp only [List.foldl_cons]
      refine (ih (addToGroup acc m)).trans ?_
      refine (List.Perm.append_right rest (addToGroup_flatten acc m)).trans ?_
      refine List.Perm.of_eq ?_
      rw [List.append_assoc]
      rfl

/-- Adding a message either reuses an existing group key or appends a
fresh one. -/
theorem addToGroup_keys (groups : List (MessageType × List MailboxMessage))
    (m : MailboxMessage) :
    ((addToGroup groups m).map (fun p => p.1) = groups.map (fun p => p.1) ∧
      m.type ∈ groups.map (fun p => p.1)) ∨
    ((addToGroup groups m).map (fun p => p.1) =
        groups.map (fun p => p.1) ++ [m.type] ∧
      m.type ∉ groups.map (fun p => p.1)) := by
  induction groups with
  | nil =>
      right
      simp [addToGroup]
  | cons p rest ih =>
      obtain ⟨t, ms⟩ := p
      by_cases ht : t == m.type
      · left
        have ht2 : t = m.type := by simpa using ht
        simp [addToGroup, ht, ht2]
      · rcases ih with ⟨he, hm⟩ | ⟨he, hnm⟩
        · left
          simp [addToGroup, ht, he, hm]
        · right
          have ht2 : ¬ t = m.type := by simpa using ht
          constructor
          · simp [addToGroup, ht, he]
          · simp only [List.map_cons, List.mem_cons]
            rintro (h | h)
            · exact ht2 h.symm
            · exact hnm h
  -- (end addToGroup_keys)

/-- The groups produced by `groupByType` have pairwise distinct type
keys (each type appears at most once). -/
theorem groupByType_keys_nodup (messages : List MailboxMessage) :
    ((groupByType messages).map (fun p => p.1)).Nodup := by
  suffices h : ∀ (msgs : List MailboxMessage)
      (acc : List (MessageType × List MailboxMessage)),
      ((acc.map (fun p => p.1)).Nodup) →
        (((msgs.foldl addToGroup acc)).map (fun p => p.1)).Nodup by
    simpa [groupByType] using h messages [] (by simp)
  intro msgs
  induction msgs with
  | nil =>
      intro acc h
      simpa using h
  | cons m rest ih =>
      intro acc h
      simp only [List.foldl_cons]
      apply ih
      rcases addToGroup_keys acc m with ⟨he, _⟩ | ⟨he, hnm⟩
      · rwa [he]
      · rw [he, List.nodup_append]
        refine ⟨h, by simp, ?_⟩
        intro a ha hb
        simp at hb
        subst hb
        exact hnm ha

/-- The per-type loop partitions every group, its type counts carry the
group keys with the per-group cull sizes, and the dedup and confidence
tallies stay within the flattened cull. -/
theorem applyGroups_spec (cfg : RetentionManagerConfig) :
    ∀ groups : List (MessageType × List MailboxMessage),
      List.Perm ((applyGroups cfg groups).keeps.flatten ++
          (applyGroups cfg groups).culls.flatten)
        ((groups.map (fun p => p.2)).flatten) ∧
      (applyGroups cfg groups).typeCounts.map (fun p => p.1) =
        groups.map (fun p => p.1) ∧
      ((applyGroups cfg groups).typeCounts.map (fun p => p.2)).sum =
        (applyGroups cfg groups).culls.flatten.length ∧
      (applyGroups cfg groups).dedupCulled +
          (applyGroups cfg groups).confidenceCulled ≤
        (applyGroups cfg groups).culls.flatten.length := by
  intro groups
  induction groups with
  | nil => simp [applyGroups]
  | cons g rest ih =>
      obtain ⟨t, typeMessages⟩ := g
      obtain ⟨ihp, ihk, ihs, ihc⟩ := ih
      have hap := applyPolicy_partition typeMessages (getPolicy cfg t)
      refine ⟨?_, ?_, ?_, ?_⟩
      · simp only [applyGroups, List.flatten_cons, List.map_cons]
        exact (perm_four _ _ _ _).trans (hap.1.append ihp)
      · simp [applyGroups, ihk]
      · simp only [applyGroups, List.flatten_cons, List.map_cons,
          List.sum_cons, List.length_append]
        omega
      · simp only [applyGroups, List.flatten_cons, List.length_append]
        have h2 := hap.2
        omega

/-- Summing the four slots of the zero-initialised per-type record
equals the sum of the recorded counts, when each type occurs at most
once. -/
theorem sum_lookup (l : List (MessageType × Nat))
    (hnd : (l.map (fun p => p.1)).Nodup) :
    sumByType (fun t =>
        ((l.find? (fun p => p.1 == t)).map (fun p => p.2)).getD 0) =
      (l.map (fun p => p.2)).sum := by
  induction l with
  | nil => simp [sumByType]
  | cons p rest ihg =>
      obtain ⟨t0, n0⟩ := p
      have hnd' : (t0 :: rest.map (fun p => p.1)).Nodup := by simpa using hnd
      have hnd0 := List.nodup_cons.mp hnd'
      have hpt : t0 ∉ rest.map (fun p => p.1) := hnd0.1
      have hfn : rest.find? (fun q => q.1 == t0) = none := by
        rw [List.find?_eq_none]
        intro q hq
        simp only [beq_iff_eq]
        intro he
        exact hpt (he ▸ List.mem_map_of_mem (fun p => p.1) hq)
      have ihs := ihg hnd0.2
      have hstep : ∀ t,
          ((((t0, n0) :: rest).find? (fun q => q.1 == t)).map
            (fun p => p.2)).getD 0 =
          if t0 = t then n0
          else ((rest.find? (fun q => q.1 == t)).map (fun p => p.2)).getD 0 := by
        intro t
        by_cases he : t0 = t
        · subst he
          simp [List.find?]
        · have hbe : (t0 == t) = false := by simpa using he
          simp [List.find?, hbe, he]
      have hz : ((rest.find? (fun q => q.1 == t0)).map
          (fun p => p.2)).getD 0 = 0 := by
        rw [hfn]
        rfl
      simp only [sumByType] at ihs
      cases t0 <;>
        simp only [sumByType, hstep, List.map_cons, List.sum_cons] <;>
          simp <;> omega

/-- C3 (amended): `keep ++ cull` is a permutation of the input;
`totalInput` and `totalKept` are the input and kept sizes; and when no
global maximum applies (`globalMaxMessages` unset), `totalKept` plus
the per-category `culledByType` counts partition the input exactly,
while `culledByDedup`/`culledByConfidence` are overlapping sub-counts
bounded by the per-category total — so adding them to the partition
double-counts. -/
theorem retention_stats_amended (cfg : RetentionManagerConfig)
    (messages : List MailboxMessage) :
    List.Perm ((retentionApply cfg messages).keep ++
        (retentionApply cfg messages).cull) messages ∧
    (retentionApply cfg messages).stats.totalInput = messages.length ∧
    (retentionApply cfg messages).stats.totalKept =
      (retentionApply cfg messages).keep.length ∧
    (cfg.globalMaxMessages = none →
      (retentionApply cfg messages).stats.totalKept +
          sumByType (retentionApply cfg messages).stats.culledByType =
        messages.length) ∧
    (cfg.globalMaxMessages = none →
      (retentionApply cfg messages).stats.culledByDedup +
          (retentionApply cfg messages).stats.culledByConfidence ≤
        sumByType (retentionApply cfg messages).stats.culledByType) := by
  obtain ⟨hperm, hkeys, hsum, hcnt⟩ := applyGroups_spec cfg (groupByType messages)
  have hpart : List.Perm
      ((applyGroups cfg (groupByType messages)).keeps.flatten ++
        (applyGroups cfg (groupByType messages)).culls.flatten) messages :=
    hperm.trans (groupByType_flatten messages)
  have hnd : ((applyGroups cfg
      (groupByType messages)).typeCounts.map (fun p => p.1)).Nodup := by
    rw [hkeys]
    exact groupByType_keys_nodup messages
  have hlook := sum_lookup _ hnd
  rw [hsum] at hlook
  rcases hg : cfg.globalMaxMessages with _ | g
  · simp only [retentionApply, hg]
    refine ⟨hpart, trivial, trivial, ?_, ?_⟩
    · intro _
      rw [hlook]
      simpa [List.length_append] using hpart.length_eq
    · intro _
      rw [hlook]
      exact hcnt
  · simp only [retentionApply, hg]
    by_cases hgt : g ≠ 0 ∧ g <
        (applyGroups cfg (groupByType messages)).keeps.flatten.length
    · simp only [if_pos hgt]
      refine ⟨?_, trivial, trivial, ?_, ?_⟩
      · refine perm_step hpart ?_
        exact (List.Perm.of_eq (List.take_append_drop g _)).trans
          (List.perm_insertionSort ConfOrder _)
      · intro hnone
        exact absurd hnone (by simp)
      · intro hnone
        exact absurd hnone (by simp)
    · simp only [if_neg hgt]
      refine ⟨hpart, trivial, trivial, ?_, ?_⟩
      · intro hnone
        exact absurd hnone (by simp)
      · intro hnone
        exact absurd hnone (by simp)

/-- C3 counterexample: two duplicate-content insights under a
dedup-only policy give `totalKept = 1`, `culledByType insight = 1` and
`culledByDedup = 1`, so summing `totalKept` with the per-category and
per-reason counts yields 3 ≠ 2 = `totalInput`: the reported counts do
not account for each input message exactly once. -/
theorem retention_stats_double_count_counterexample :
    (retentionApply retCfg [retMsg 1 1, retMsg 2 2]).stats.totalKept +
        sumByType
          (retentionApply retCfg [retMsg 1 1, retMsg 2 2]).stats.culledByType +
        (retentionApply retCfg [retMsg 1 1, retMsg 2 2]).stats.culledByDedup +
        (retentionApply retCfg [retMsg 1 1, retMsg 2 2]).stats.culledByConfidence ≠
      (retentionApply retCfg [retMsg 1 1, retMsg 2 2]).stats.totalInput := by
  decide

/-- Witness for C3: with no global maximum, the two duplicate insights
are accounted for exactly once by `totalKept` plus `culledByType`. -/
theorem retention_stats_amended_witness :
    (retentionApply retCfg [retMsg 1 1, retMsg 2 2]).stats.totalKept +
        sumByType
          (retentionApply retCfg [retMsg 1 1, retMsg 2 2]).stats.culledByType =
      2 :=
  (retention_stats_amended retCfg [retMsg 1 1, retMsg 2 2]).2.2.2.1 rfl

/-- Invariant of the `dispatch` handler loop: whenever it returns a
result, the processed prefix is logged in order, the skipped/error/run
tallies are exactly the classified log entries added to the
accumulator, an entry is skipped exactly when its filter rejected the
snapshot, and the loop stopped early exactly when a successfully run
handler requested a short-circuit (otherwise every handler was
processed). -/
theorem dispatchGo_spec (cont : Bool) (snap : StepSnapshot) :
    ∀ (hs : List ObserverHandler) (st : StoreState) (acc : DispatchResult)
      (r : DispatchResult) (st2 : StoreState),
      acc.shortCircuited = false →
      dispatchGo cont snap hs st acc = (Except.ok r, st2) →
      ∃ tr : List (ObserverHandler × HandlerStep),
        r.log = acc.log ++ tr ∧
        (tr.map Prod.fst) <+: hs ∧
        r.observersSkipped = acc.observersSkipped ++
          (tr.filter (fun p => isSkippedStep p.2)).map (fun p => p.1.id) ∧
        r.errors = acc.errors ++ tr.filterMap errOfStep ∧
        r.observersRun = acc.observersRun +
          (tr.filter (fun p => isOkStep p.2)).length ∧
        (∀ p ∈ tr, p.2 = HandlerStep.skipped ↔
          ∃ f, p.1.filter = some f ∧ f snap = false) ∧
        (r.shortCircuited = true ↔
          ∃ pre h res, tr = pre ++ [(h, HandlerStep.ranOk res)] ∧
            res.skipRemainingObservers = true) ∧
        (r.shortCircuited = false → tr.map Prod.fst = hs) := by
  intro hs
  induction hs with
  | nil =>
      intro st acc r st2 hsc hrun
      simp only [dispatchGo, Prod.mk.injEq, Except.ok.injEq] at hrun
      obtain ⟨rfl, rfl⟩ := hrun
      refine ⟨[], by simp, by simp, by simp, by simp, by simp, by simp,
        ?_, by simp⟩
      rw [hsc]
      constructor
      · intro hfalse
        simp at hfalse
      · rintro ⟨pre, hh, res, htr, -⟩
        exact absurd htr (by simp)
  | cons h rest ih =>
      intro st acc r st2 hsc hrun
      rw [dispatchGo] at hrun
      by_cases hskip : (match h.filter with
          | some f => !f snap
          | none => false) = true
      · rw [if_pos hskip] at hrun
        obtain ⟨tr', hlog, hpre, hskipped, herr, hrunc, hentry, hsc', hfull⟩ :=
          ih _ _ r st2 (by exact hsc) hrun
        have hrej : ∃ f, h.filter = some f ∧ f snap = false := by
          rcases hf : h.filter with _ | f
          · rw [hf] at hskip
            simp at hskip
          · rw [hf] at hskip
            simp at hskip
            exact ⟨f, rfl, hskip⟩
        refine ⟨(h, HandlerStep.skipped) :: tr', ?_, ?_, ?_, ?_, ?_, ?_, ?_, ?_⟩
        · rw [hlog]
          simp
        · simp only [List.map_cons]
          obtain ⟨t, ht⟩ := hpre
          exact ⟨t, by rw [List.cons_append, ht]⟩
        · rw [hskipped]
          simp [isSkippedStep]
        · rw [herr]
          simp [errOfStep]
        · rw [hrunc]
          simp [isOkStep]
        · intro p hp
          rcases List.mem_cons.mp hp with rfl | hp2
          · exact ⟨fun _ => hrej, fun _ => rfl⟩
          · exact hentry p hp2
        · rw [hsc']
          constructor
          · rintro ⟨pre, hh, res, htr, hres⟩
            exact ⟨(h, HandlerStep.skipped) :: pre, hh, res,
              by rw [htr]; rfl, hres⟩
          · rintro ⟨pre, hh, res, htr, hres⟩
            cases pre with
            | nil =>
                simp at htr
            | cons q pre2 =>
                rw [List.cons_append] at htr
                injection htr with hq htr2
                exact ⟨pre2, hh, res, htr2, hres⟩
        · intro hfls
          simp [hfull hfls]
      · rw [if_neg hskip] at hrun
        have hpass : ∀ f, h.filter = some f → f snap = true := by
          intro f hf
          rw [hf] at hskip
          simpa using hskip
        cases hh : h.handle snap with
        | ok res =>
            rw [hh] at hrun
            dsimp only at hrun
            cases hsr : res.skipRemainingObservers with
            | true =>
                rw [hsr] at hrun
                rw [if_pos rfl] at hrun
                simp only [Prod.mk.injEq, Except.ok.injEq] at hrun
                obtain ⟨hr, -⟩ := hrun
                subst hr
                refine ⟨[(h, HandlerStep.ranOk res)], by simp, by simp,
                  by simp [isSkippedStep], by simp [errOfStep],
                  by simp [isOkStep], ?_, ?_, ?_⟩
                · intro p hp
                  rcases List.mem_cons.mp hp with rfl | hp2
                  · constructor
                    · intro hcontra
                      simp at hcontra
                    · rintro ⟨f, hf, hrej⟩
                      rw [hpass f hf] at hrej
                      simp at hrej
                  · simp at hp2
                · constructor
                  · intro _
                    exact ⟨[], h, res, by simp, hsr⟩
                  · intro _
                    rfl
                · intro hfls
                  simp at hfls
            | false =>
                rw [hsr] at hrun
                rw [if_neg (by simp)] at hrun
                obtain ⟨tr', hlog, hpre, hskipped, herr, hrunc, hentry, hsc', hfull⟩ :=
                  ih _ _ r st2 (by exact hsc) hrun
                refine ⟨(h, HandlerStep.ranOk res) :: tr', ?_, ?_, ?_, ?_, ?_,
                  ?_, ?_, ?_⟩
                · rw [hlog]
                  simp
                · simp only [List.map_cons]
                  obtain ⟨t, ht⟩ := hpre
                  exact ⟨t, by rw [List.cons_append, ht]⟩
                · rw [hskipped]
                  simp [isSkippedStep]
                · rw [herr]
                  simp [errOfStep]
                · rw [hrunc]
                  simp [isOkStep]
                  omega
                · intro p hp
                  rcases List.mem_cons.mp hp with rfl | hp2
                  · constructor
                    · intro hcontra
                      simp at hcontra
                    · rintro ⟨f, hf, hrej⟩
                      rw [hpass f hf] at hrej
                      simp at hrej
                  · exact hentry p hp2
                · rw [hsc']
                  constructor
                  · rintro ⟨pre, hh2, res2, htr, hres⟩
                    exact ⟨(h, HandlerStep.ranOk res) :: pre, hh2, res2,
                      by rw [htr]; rfl, hres⟩
                  · rintro ⟨pre, hh2, res2, htr, hres⟩
                    cases pre with
                    | nil =>
                        simp at htr
                        obtain ⟨⟨-, hstep⟩, -⟩ := htr
                        rw [← hstep] at hres
                        rw [hsr] at hres
                        simp at hres
                    | cons q pre2 =>
                        rw [List.cons_append] at htr
                        injection htr with hq htr2
                        exact ⟨pre2, hh2, res2, htr2, hres⟩
                · intro hfls
                  simp [hfull hfls]
        | error e =>
            rw [hh] at hrun
            dsimp only at hrun
            cases cont with
            | true =>
                rw [if_pos rfl] at hrun
                obtain ⟨tr', hlog, hpre, hskipped, herr, hrunc, hentry, hsc', hfull⟩ :=
                  ih _ _ r st2 (by exact hsc) hrun
                refine ⟨(h, HandlerStep.ranErr e) :: tr', ?_, ?_, ?_, ?_, ?_,
                  ?_, ?_, ?_⟩
                · rw [hlog]
                  simp
                · simp only [List.map_cons]
                  obtain ⟨t, ht⟩ := hpre
                  exact ⟨t, by rw [List.cons_append, ht]⟩
                · rw [hskipped]
                  simp [isSkippedStep]
                · rw [herr]
                  simp [errOfStep]
                · rw [hrunc]
                  simp [isOkStep]
                · intro p hp
                  rcases List.mem_cons.mp hp with rfl | hp2
                  · constructor
                    · intro hcontra
                      simp at hcontra
                    · rintro ⟨f, hf, hrej⟩
                      rw [hpass f hf] at hrej
                      simp at hrej
                  · exact hentry p hp2
                · rw [hsc']
                  constructor
                  · rintro ⟨pre, hh2, res2, htr, hres⟩
                    exact ⟨(h, HandlerStep.ranErr e) :: pre, hh2, res2,
                      by rw [htr]; rfl, hres⟩
                  · rintro ⟨pre, hh2, res2, htr, hres⟩
                    cases pre with
                    | nil =>
                        simp at htr
                    | cons q pre2 =>
                        rw [List.cons_append] at htr
                        injection htr with hq htr2
                        exact ⟨pre2, hh2, res2, htr2, hres⟩
                · intro hfls
                  simp [hfull hfls]
            | false =>
                rw [if_neg (by simp)] at hrun
                simp at hrun

/-- C8: dispatch processes handlers in descending priority order; a
handler whose filter rejects the snapshot is recorded as skipped — not
as an error — and processing continues; the loop stops early exactly
when a successfully run handler requests a short-circuit, in which case
`shortCircuited` is true, no later (lower-priority) handler is
processed, and the tallies accumulated so far are still returned. -/
theorem dispatch_contract (reg : ObserverRegistry) (snap : StepSnapshot)
    (st : StoreState) (r : DispatchResult) (st2 : StoreState)
    (hok : dispatch reg snap st = (Except.ok r, st2)) :
    List.Pairwise (fun a b => b ≤ a)
      ((getHandlers reg).map (fun h => h.priority)) ∧
    (r.log.map Prod.fst) <+: getHandlers reg ∧
    r.observersSkipped =
      (r.log.filter (fun p => isSkippedStep p.2)).map (fun p => p.1.id) ∧
    r.errors = r.log.filterMap errOfStep ∧
    r.observersRun = (r.log.filter (fun p => isOkStep p.2)).length ∧
    (∀ p ∈ r.log, p.2 = HandlerStep.skipped ↔
      ∃ f, p.1.filter = some f ∧ f snap = false) ∧
    ((reg.handlers.map (fun h => h.id)).Nodup →
      ∀ id ∈ r.observersSkipped, id ∉ r.errors.map Prod.fst) ∧
    (r.shortCircuited = true ↔
      ∃ pre h res, r.log = pre ++ [(h, HandlerStep.ranOk res)] ∧
        res.skipRemainingObservers = true) ∧
    (r.shortCircuited = false → r.log.map Prod.fst = getHandlers reg) := by
  obtain ⟨tr, hlog, hpre, hskipped, herr, hrunc, hentry, hsc, hfull⟩ :=
    dispatchGo_spec reg.continueOnError snap (getHandlers reg) st
      emptyDispatchResult r st2 rfl hok
  have hlog2 : r.log = tr := by
    simpa [emptyDispatchResult] using hlog
  subst hlog2
  have hsortp : List.Pairwise (fun a b => b ≤ a)
      ((getHandlers reg).map (fun h => h.priority)) := by
    have hs : List.Pairwise PriorityOrder
        (List.insertionSort PriorityOrder reg.handlers) :=
      List.sorted_insertionSort PriorityOrder reg.handlers
    exact List.pairwise_map.mpr hs
  refine ⟨hsortp, hpre, by simpa [emptyDispatchResult] using hskipped,
    by simpa [emptyDispatchResult] using herr,
    by simpa [emptyDispatchResult] using hrunc, hentry, ?_, hsc, hfull⟩
  intro hnodup id hidskip hiderr
  have hskipped2 : r.observersSkipped =
      (r.log.filter (fun p => isSkippedStep p.2)).map (fun p => p.1.id) := by
    simpa [emptyDispatchResult] using hskipped
  have herr2 : r.errors = r.log.filterMap errOfStep := by
    simpa [emptyDispatchResult] using herr
  -- the ids of the processed handlers are pairwise distinct
  have hnd : (r.log.map (fun p => p.1.id)).Nodup := by
    have h1 : ((getHandlers reg).map (fun h => h.id)).Nodup := by
      refine (List.Perm.nodup_iff ?_).mpr hnodup
      exact (List.perm_insertionSort PriorityOrder reg.handlers).map _
    have h2 : List.Sublist ((r.log.map Prod.fst).map (fun h => h.id))
        ((getHandlers reg).map (fun h => h.id)) :=
      List.Sublist.map (fun h => h.id) hpre.sublist
    have h3 := h1.sublist h2
    simpa [List.map_map, Function.comp] using h3
  -- a skipped id comes from a skipped entry, an error id from an error
  -- entry; by injectivity they would be the same entry, contradiction
  rw [hskipped2] at hidskip
  rw [herr2] at hiderr
  obtain ⟨p, hp, hpid⟩ := List.mem_map.mp hidskip
  have hpmem := (List.mem_filter.mp hp).1
  have hpskip := (List.mem_filter.mp hp).2
  obtain ⟨pe, hpemem, hpefst⟩ := List.mem_map.mp hiderr
  obtain ⟨q, hq, hqe⟩ := List.mem_filterMap.mp hpemem
  rcases hq2 : q.2 with _ | res | e2 <;> simp [errOfStep, hq2] at hqe
  have hqid : q.1.id = id := by
    rw [← hpefst, ← hqe]
  have hinj := List.inj_on_of_nodup_map hnd
  have hpq : p = q := hinj hpmem hq (by rw [hpid, hqid])
  -- but p is a skipped entry while q is an error entry
  rw [hpq, hq2] at hpskip
  simp [isSkippedStep] at hpskip

/-- Witness for C8: dispatching over the registry whose highest-priority
handler is filter-rejected and whose next handler short-circuits records
the skip (not an error) and stops with `shortCircuited = true` before
the priority-1 handler. -/
theorem dispatch_contract_witness :
    (obsRes.observersSkipped =
        (obsRes.log.filter (fun p => isSkippedStep p.2)).map
          (fun p => p.1.id) ∧
      (obsRes.shortCircuited = true ↔
        ∃ pre h res, obsRes.log = pre ++ [(h, HandlerStep.ranOk res)] ∧
          res.skipRemainingObservers = true)) :=
  ⟨(dispatch_contract obsReg obsSnap emptyStore obsRes
      (dispatch obsReg obsSnap emptyStore).2 rfl).2.2.1,
    (dispatch_contract obsReg obsSnap emptyStore obsRes
      (dispatch obsReg obsSnap emptyStore).2 rfl).2.2.2.2.2.2.2.1⟩

end Mailbox
